import Mathlib

/-!
Math Hub (`src/app.js`): progress store, viewer overlay and start-up

A shallow embedding of the script `src/app.js`.  The script keeps a progress
map `data` (an ordinary JavaScript object), a video-mode string, two
`localStorage` entries and touches a handful of DOM elements.  The embedding
makes that state explicit (`World`) and turns each function of the script into
a function on worlds.

Platform pieces the script calls (`JSON.parse`, `JSON.stringify`, property
lookup on ordinary objects, `parseInt`) are modelled after ECMA-262.  Known
limits of the model are stated where they occur:

* strings are Lean strings, so a string holding a lone UTF-16 surrogate cannot
  be represented;
* a JSON number is kept as its literal text, its IEEE-754 value is only
  inspected for being zero;
* the quotient in the percentage is computed exactly, not in IEEE-754.
-/

set_option autoImplicit false

namespace MathHub

/-! ## JavaScript values -/

/-- The values `JSON.parse` can produce. A number carries its literal. -/
inductive JVal where
  | null
  | bool (b : Bool)
  | num (lit : String)
  | str (s : String)
  | arr (xs : List JVal)
  | obj (props : List (String × JVal))
  deriving Repr, Inhabited

/-- The own enumerable properties of an ordinary object, in enumeration order. -/
abbrev Obj := List (String × JVal)

/-- Errors the script can raise. -/
inductive JSError where
  | syntaxError
  | typeError
  deriving Repr, DecidableEq, Inhabited

/-- The value of `o[k]` for an ordinary object `o`: an own property, a property
inherited from `Object.prototype`, or `undefined`. -/
inductive PropVal where
  | undefined
  | inherited (name : String)
  | own (v : JVal)
  deriving Repr, Inhabited

/-! ### Numbers -/

/-- Decimal digit test. -/
def isDigit (c : Char) : Bool := decide (48 ≤ c.toNat) && decide (c.toNat ≤ 57)

/-- Longest run of decimal digits at the front of the input. -/
def takeDigits : List Char → List Char × List Char
  | [] => ([], [])
  | c :: cs => if isDigit c then ((c :: (takeDigits cs).1), (takeDigits cs).2) else ([], c :: cs)

/-- Value of a run of decimal digits. -/
def digitsVal (cs : List Char) : Nat :=
  cs.foldl (fun n c => 10 * n + (c.toNat - 48)) 0

/-- Decimal exponent written after `e`/`E` in a number literal (0 when absent). -/
def litExponent : List Char → Int
  | [] => 0
  | c :: cs =>
    if c = 'e' ∨ c = 'E' then
      match cs with
      | '-' :: ds => - (digitsVal ds : Int)
      | '+' :: ds => (digitsVal ds : Int)
      | ds => (digitsVal ds : Int)
    else litExponent cs

/-- Whether the IEEE-754 double denoted by a JSON number literal is `0` or `-0`.
With integer digits `i`, fraction digits `f` and exponent `e` the literal
denotes `c * 10 ^ x` for `c = digits (i ++ f)` and `x = e - |f|`; under
round-to-nearest-even it becomes zero exactly when `c * 10 ^ x ≤ 2 ^ (-1075)`. -/
def numIsZero (lit : String) : Bool :=
  let body := match lit.toList with
    | '-' :: r => r
    | r => r
  let i := (takeDigits body).1
  let afterInt := (takeDigits body).2
  let f := match afterInt with
    | '.' :: r => (takeDigits r).1
    | _ => []
  let c := digitsVal (i ++ f)
  let x : Int := litExponent afterInt - (f.length : Int)
  if c = 0 then true
  else if 0 ≤ x then false
  else decide (c * 2 ^ 1075 ≤ 10 ^ x.natAbs)

/-! ### Truthiness -/

/-- ToBoolean on JSON values. -/
def truthy : JVal → Bool
  | .null => false
  | .bool b => b
  | .num lit => !numIsZero lit
  | .str s => decide (s ≠ "")
  | .arr _ => true
  | .obj _ => true

/-- ToBoolean on the result of a property read. Every property of
`Object.prototype` is a function or an object, hence truthy. -/
def PropVal.truthy : PropVal → Bool
  | .undefined => false
  | .inherited _ => true
  | .own v => MathHub.truthy v

/-! ## Ordinary objects -/

/-- Property names every ordinary object inherits from `Object.prototype`. -/
def objectPrototypeKeys : List String :=
  ["constructor", "__defineGetter__", "__defineSetter__", "hasOwnProperty",
   "__lookupGetter__", "__lookupSetter__", "isPrototypeOf", "propertyIsEnumerable",
   "toString", "valueOf", "__proto__", "toLocaleString"]

/-- Own property lookup. -/
def getOwn : Obj → String → Option JVal
  | [], _ => none
  | (k, v) :: rest, key => if k = key then some v else getOwn rest key

/-- The read `o[key]`: own property first, then the prototype chain. -/
def getProp (o : Obj) (key : String) : PropVal :=
  match getOwn o key with
  | some v => .own v
  | none => if key ∈ objectPrototypeKeys then .inherited key else .undefined

/-- Array index of a property key: the key is the canonical decimal form of
an integer below `2 ^ 32 - 1`. -/
def arrayIndex? (key : String) : Option Nat :=
  match key.toList with
  | [] => none
  | c :: cs =>
    if (c :: cs).all isDigit && (decide (c ≠ '0') || cs.isEmpty) then
      (if digitsVal (c :: cs) < 4294967295 then some (digitsVal (c :: cs)) else none)
    else none

/-- Replace the value of an existing own property, keeping its position. -/
def updateOwn : Obj → String → JVal → Obj
  | [], _, _ => []
  | (k, w) :: rest, key, v =>
    if k = key then (k, v) :: rest else (k, w) :: updateOwn rest key v

/-- Add a new own property whose key is the array index `i`: array indices are
enumerated first, in ascending order. -/
def insertIndex : Obj → Nat → String → JVal → Obj
  | [], _, key, v => [(key, v)]
  | (k, w) :: rest, i, key, v =>
    match arrayIndex? k with
    | some j => if j < i then (k, w) :: insertIndex rest i key v else (key, v) :: (k, w) :: rest
    | none => (key, v) :: (k, w) :: rest

/-- Define own property `key` with value `v` (CreateDataProperty): an existing
property keeps its place; a new one is enumerated among the array indices in
ascending order, or last when the key is not an array index. -/
def setOwn (o : Obj) (key : String) (v : JVal) : Obj :=
  match getOwn o key with
  | some _ => updateOwn o key v
  | none =>
    match arrayIndex? key with
    | some i => insertIndex o i key v
    | none => o ++ [(key, v)]

/-- The assignment `o[key] = b` of a boolean. An own property is overwritten.
Otherwise `__proto__` reaches the setter of `Object.prototype`, which ignores a
value that is neither an object nor null; any other key gets a new own
property (the data properties of `Object.prototype` are writable). -/
def assignBool (o : Obj) (key : String) (b : Bool) : Obj :=
  match getOwn o key with
  | some _ => updateOwn o key (.bool b)
  | none => if key = "__proto__" then o else setOwn o key (.bool b)

/-- CopyDataProperties: define every own property of `src` on `target`. -/
def copyProps (target : Obj) (src : Obj) : Obj :=
  src.foldl (fun acc p => setOwn acc p.1 p.2) target

/-- Own enumerable properties of an arbitrary JSON value, as object spread sees
them: none for `null`, booleans and numbers, the elements of an array under
their indices, the characters of a string under their indices. A string is
taken character by character here; the script spreads its UTF-16 code units,
which differs for characters outside the basic plane. -/
def ownProps : JVal → Obj
  | .obj ps => ps
  | .arr xs => (List.range xs.length).zip xs |>.map (fun p => (toString p.1, p.2))
  | .str s => (List.range s.length).zip s.toList |>.map (fun p => (toString p.1, JVal.str (String.mk [p.2])))
  | _ => []

/-- The object literal `{ ...a, ...b }`. -/
def spread (a : Obj) (b : JVal) : Obj :=
  copyProps (copyProps [] a) (ownProps b)

/-- Keys of an object are pairwise distinct. -/
def Obj.WF (o : Obj) : Prop := (o.map Prod.fst).Nodup

/-- The keys are listed in enumeration order: array indices first, in ascending
order, then the other keys; no key twice. Every later array index has only
smaller array indices before it. -/
def Obj.Ordered (o : Obj) : Prop :=
  o.Pairwise (fun p q => p.1 ≠ q.1 ∧
    ∀ j, arrayIndex? q.1 = some j → ∃ i, arrayIndex? p.1 = some i ∧ i < j)

/-- The done-value of an id as the specification reads it: the truthiness of
its own property, an absent id counting as false. -/
def doneValue (o : Obj) (id : String) : Bool :=
  match getOwn o id with
  | some v => truthy v
  | none => false

/-- Every own property holds a boolean. -/
def allBool (o : Obj) : Prop := ∀ p ∈ o, ∃ b, p.2 = JVal.bool b

/-! ## JSON -/

namespace JSON

/-- JSON white space: space, tab, line feed, carriage return. -/
def isWs (c : Char) : Bool := c = ' ' || c = '\t' || c = '\n' || c = '\r'

/-- Drop leading white space. -/
def skipWs : List Char → List Char
  | [] => []
  | c :: cs => if isWs c then skipWs cs else c :: cs

/-- Value of a hexadecimal digit. -/
def hexVal (c : Char) : Option Nat :=
  if 48 ≤ c.toNat ∧ c.toNat ≤ 57 then some (c.toNat - 48)
  else if 97 ≤ c.toNat ∧ c.toNat ≤ 102 then some (c.toNat - 87)
  else if 65 ≤ c.toNat ∧ c.toNat ≤ 70 then some (c.toNat - 55)
  else none

/-- Four hexadecimal digits. -/
def hex4 : List Char → Option (Nat × List Char)
  | a :: b :: c :: d :: rest =>
    match hexVal a, hexVal b, hexVal c, hexVal d with
    | some x, some y, some z, some w => some (((x * 16 + y) * 16 + z) * 16 + w, rest)
    | _, _, _, _ => none
  | _ => none

/-- Stand-in for a lone surrogate, which a Lean string cannot hold: `JSON.parse`
keeps the code unit of an escaped lone surrogate, here it reads as U+FFFD. -/
def replacementChar : Char := Char.ofNat 0xFFFD

/-- The character for an escaped high surrogate `u`: when an escaped low
surrogate follows, the pair is read as the character it encodes. -/
def parseLowSurrogate (u : Nat) (rest1 : List Char) : Char × List Char :=
  match rest1 with
  | '\\' :: 'u' :: rest2 =>
    match hex4 rest2 with
    | some (l, rest3) =>
      if 0xDC00 ≤ l ∧ l < 0xE000 then
        (Char.ofNat (0x10000 + (u - 0xD800) * 0x400 + (l - 0xDC00)), rest3)
      else (replacementChar, rest1)
    | none => (replacementChar, rest1)
  | _ => (replacementChar, rest1)

/-- The escape `\uXXXX`; the input is what follows the `u`. -/
def parseUnicodeEscape (rest : List Char) : Option (Char × List Char) :=
  match hex4 rest with
  | none => none
  | some (u, rest1) =>
    if 0xD800 ≤ u ∧ u < 0xDC00 then some (parseLowSurrogate u rest1)
    else if 0xDC00 ≤ u ∧ u < 0xE000 then some (replacementChar, rest1)
    else some (Char.ofNat u, rest1)

/-- One escape sequence; the input is what follows the backslash. -/
def parseEscape : List Char → Option (Char × List Char)
  | [] => none
  | c :: rest =>
    if c = '"' then some ('"', rest)
    else if c = '\\' then some ('\\', rest)
    else if c = '/' then some ('/', rest)
    else if c = 'b' then some (Char.ofNat 8, rest)
    else if c = 'f' then some (Char.ofNat 12, rest)
    else if c = 'n' then some ('\n', rest)
    else if c = 'r' then some ('\r', rest)
    else if c = 't' then some ('\t', rest)
    else if c = 'u' then parseUnicodeEscape rest
    else none

/-- The characters of a string literal up to its closing quote; the input is
what follows the opening quote. Each step consumes input, so fuel equal to the
length of the input is never exhausted (`parseStr_fuel`). -/
def parseStr : Nat → List Char → Option (List Char × List Char)
  | 0, _ => none
  | _ + 1, [] => none
  | n + 1, c :: rest =>
    if c = '"' then some ([], rest)
    else if c = '\\' then
      match parseEscape rest with
      | some (d, rest1) =>
        match parseStr n rest1 with
        | some (s, rest2) => some (d :: s, rest2)
        | none => none
      | none => none
    else if c.toNat < 32 then none
    else
      match parseStr n rest with
      | some (s, rest1) => some (c :: s, rest1)
      | none => none

/-- Integer part of a number: `0`, or a non-zero digit followed by digits. -/
def parseIntPart : List Char → Option (List Char × List Char)
  | [] => none
  | c :: rest =>
    if c = '0' then some (['0'], rest)
    else if isDigit c then some (c :: (takeDigits rest).1, (takeDigits rest).2)
    else none

/-- Optional fraction: a dot followed by at least one digit. -/
def parseFrac : List Char → Option (List Char × List Char)
  | '.' :: rest =>
    match takeDigits rest with
    | ([], _) => none
    | (ds, rest1) => some ('.' :: ds, rest1)
  | cs => some ([], cs)

/-- Digits of an exponent, at least one. -/
def parseExpDigits (mark : List Char) (cs : List Char) : Option (List Char × List Char) :=
  match takeDigits cs with
  | ([], _) => none
  | (ds, rest) => some (mark ++ ds, rest)

/-- Optional exponent: `e` or `E`, an optional sign, at least one digit. -/
def parseExp : List Char → Option (List Char × List Char)
  | [] => some ([], [])
  | c :: rest =>
    if c = 'e' ∨ c = 'E' then
      match rest with
      | '-' :: r => parseExpDigits [c, '-'] r
      | '+' :: r => parseExpDigits [c, '+'] r
      | r => parseExpDigits [c] r
    else some ([], c :: rest)

/-- A JSON number literal and the input after it. -/
def parseNumber (cs : List Char) : Option (List Char × List Char) :=
  let signed := match cs with
    | '-' :: r => (['-'], r)
    | r => ([], r)
  match parseIntPart signed.2 with
  | none => none
  | some (i, r1) =>
    match parseFrac r1 with
    | none => none
    | some (f, r2) =>
      match parseExp r2 with
      | none => none
      | some (e, r3) => some (signed.1 ++ i ++ f ++ e, r3)

mutual
/-- A JSON value, after optional white space. -/
def parseValue : Nat → List Char → Option (JVal × List Char)
  | 0, _ => none
  | n + 1, cs =>
    match skipWs cs with
    | [] => none
    | c :: rest =>
      if c = '{' then
        match skipWs rest with
        | '}' :: rest1 => some (.obj [], rest1)
        | _ => parseMembers n rest []
      else if c = '[' then
        match skipWs rest with
        | ']' :: rest1 => some (.arr [], rest1)
        | _ => parseElements n rest []
      else if c = '"' then
        match parseStr rest.length rest with
        | some (s, rest1) => some (.str (String.mk s), rest1)
        | none => none
      else if c = 't' then
        match rest with
        | 'r' :: 'u' :: 'e' :: rest1 => some (.bool true, rest1)
        | _ => none
      else if c = 'f' then
        match rest with
        | 'a' :: 'l' :: 's' :: 'e' :: rest1 => some (.bool false, rest1)
        | _ => none
      else if c = 'n' then
        match rest with
        | 'u' :: 'l' :: 'l' :: rest1 => some (.null, rest1)
        | _ => none
      else
        match parseNumber (c :: rest) with
        | some (lit, rest1) => some (.num (String.mk lit), rest1)
        | none => none
/-- The members of an object after the opening brace, at least one; a repeated
key keeps its first position and takes the last value. -/
def parseMembers : Nat → List Char → Obj → Option (JVal × List Char)
  | 0, _, _ => none
  | n + 1, cs, acc =>
    match skipWs cs with
    | '"' :: r =>
      match parseStr r.length r with
      | none => none
      | some (k, r1) =>
        match skipWs r1 with
        | ':' :: r2 =>
          match parseValue n r2 with
          | none => none
          | some (v, r3) =>
            match skipWs r3 with
            | ',' :: r4 => parseMembers n r4 (setOwn acc (String.mk k) v)
            | '}' :: r4 => some (.obj (setOwn acc (String.mk k) v), r4)
            | _ => none
        | _ => none
    | _ => none
/-- The elements of an array after the opening bracket, at least one. -/
def parseElements : Nat → List Char → List JVal → Option (JVal × List Char)
  | 0, _, _ => none
  | n + 1, cs, acc =>
    match parseValue n cs with
    | none => none
    | some (v, r1) =>
      match skipWs r1 with
      | ',' :: r2 => parseElements n r2 (acc ++ [v])
      | ']' :: r2 => some (.arr (acc ++ [v]), r2)
      | _ => none
end

/-- The function `JSON.parse` on a string: one value surrounded by optional
white space, or a SyntaxError. Nested calls use at most two units of fuel for
each character consumed, so the fuel given here is never exhausted
(`parse_fuel_enough`). -/
def parse (text : String) : Except JSError JVal :=
  match parseValue (2 * text.toList.length + 2) text.toList with
  | some (v, rest) => if skipWs rest = [] then .ok v else .error .syntaxError
  | none => .error .syntaxError

/-- Lower-case hexadecimal digit. -/
def hexDigit (n : Nat) : Char := if n < 10 then Char.ofNat (48 + n) else Char.ofNat (87 + n)

/-- QuoteJSONString on one character. -/
def escapeChar (c : Char) : List Char :=
  if c = '"' then ['\\', '"']
  else if c = '\\' then ['\\', '\\']
  else if c.toNat = 8 then ['\\', 'b']
  else if c.toNat = 9 then ['\\', 't']
  else if c.toNat = 10 then ['\\', 'n']
  else if c.toNat = 12 then ['\\', 'f']
  else if c.toNat = 13 then ['\\', 'r']
  else if c.toNat < 32 then ['\\', 'u', '0', '0', hexDigit (c.toNat / 16), hexDigit (c.toNat % 16)]
  else [c]

/-- The body of a quoted string. -/
def escape : List Char → List Char
  | [] => []
  | c :: cs => escapeChar c ++ escape cs

/-- QuoteJSONString. -/
def quote (s : String) : List Char := '"' :: (escape s.toList ++ ['"'])

/-- Separator between the members of a non-empty object or array. -/
def separator (gap indent : List Char) : List Char :=
  if gap = [] then [','] else ',' :: '\n' :: indent

/-- Wrap the joined members of a non-empty object or array. -/
def wrap (gap stepback indent : List Char) (opening closing : Char) (body : List Char) : List Char :=
  if gap = [] then opening :: (body ++ [closing])
  else opening :: '\n' :: (indent ++ body ++ '\n' :: (stepback ++ [closing]))

mutual
/-- SerializeJSONProperty for a JSON value at indentation `indent`. A number is
written as its literal; the script writes the shortest decimal form of the
double the literal denotes. -/
def serialize (gap indent : List Char) : JVal → List Char
  | .null => ['n', 'u', 'l', 'l']
  | .bool b => if b then ['t', 'r', 'u', 'e'] else ['f', 'a', 'l', 's', 'e']
  | .num lit => lit.toList
  | .str s => quote s
  | .arr xs =>
    match xs with
    | [] => ['[', ']']
    | _ => wrap gap indent (indent ++ gap) '[' ']' (serializeElements gap (indent ++ gap) xs)
  | .obj ps =>
    match ps with
    | [] => ['{', '}']
    | _ => wrap gap indent (indent ++ gap) '{' '}' (serializeMembers gap (indent ++ gap) ps)
/-- The elements of an array, joined by the separator. -/
def serializeElements (gap indent : List Char) : List JVal → List Char
  | [] => []
  | [v] => serialize gap indent v
  | v :: w :: rest =>
    serialize gap indent v ++ separator gap indent ++ serializeElements gap indent (w :: rest)
/-- The members of an object, joined by the separator. -/
def serializeMembers (gap indent : List Char) : List (String × JVal) → List Char
  | [] => []
  | [(k, v)] => quote k ++ ':' :: ((if gap = [] then [] else [' ']) ++ serialize gap indent v)
  | (k, v) :: q :: rest =>
    quote k ++ ':' :: ((if gap = [] then [] else [' ']) ++ serialize gap indent v)
      ++ separator gap indent ++ serializeMembers gap indent (q :: rest)
end

/-- The text of one object member whose value is the boolean `b`. -/
def memberText (gap ind : List Char) (k : String) (b : Bool) : List Char :=
  quote k ++ ':' :: ((if gap = [] then [] else [' ']) ++ serialize gap ind (.bool b))

/-- The call `JSON.stringify(value)`. -/
def stringify (v : JVal) : String := String.mk (serialize [] [] v)

/-- The call `JSON.stringify(value, null, 2)`. -/
def stringifyIndented (v : JVal) : String := String.mk (serialize [' ', ' '] [] v)

end JSON

/-! ## `parseInt` and the percentage -/

/-- White space that `parseInt` skips (StrWhiteSpaceChar). -/
def isStrWhiteSpace (c : Char) : Bool :=
  let n := c.toNat
  (decide (9 ≤ n) && decide (n ≤ 13)) || n == 32 || n == 0xA0 || n == 0x1680 ||
  (decide (0x2000 ≤ n) && decide (n ≤ 0x200A)) || n == 0x2028 || n == 0x2029 ||
  n == 0x202F || n == 0x205F || n == 0x3000 || n == 0xFEFF

/-- Drop leading `parseInt` white space. -/
def trimStart : List Char → List Char
  | [] => []
  | c :: cs => if isStrWhiteSpace c then trimStart cs else c :: cs

/-- Value of a digit in radix 16 (also covers radix 10 digits). -/
def radixDigit (radix : Nat) (c : Char) : Option Nat :=
  match JSON.hexVal c with
  | some d => if d < radix then some d else none
  | none => none

/-- Value of the longest run of radix digits at the front, `none` when empty. -/
def radixRun (radix : Nat) : List Char → Option Nat → Option Nat
  | [], acc => acc
  | c :: cs, acc =>
    match radixDigit radix c with
    | some d => radixRun radix cs (some (radix * acc.getD 0 + d))
    | none => acc

/-- Digits of `parseInt` after the sign: a `0x`/`0X` mark selects radix 16. -/
def parseIntDigits : List Char → Option Nat
  | '0' :: 'x' :: cs => radixRun 16 cs none
  | '0' :: 'X' :: cs => radixRun 16 cs none
  | cs => radixRun 10 cs none

/-- The call `parseInt(text)` without a radix; `none` stands for NaN. The
mathematical integer is returned, its rounding to a double is not modelled. -/
def parseInt (text : String) : Option Int :=
  match trimStart text.toList with
  | '-' :: cs => (parseIntDigits cs).map (fun n => - (n : Int))
  | '+' :: cs => (parseIntDigits cs).map (fun n => (n : Int))
  | cs => (parseIntDigits cs).map (fun n => (n : Int))

/-- Outcome of `Math.round((done / total) * 100)`. -/
inductive Percent where
  | nan
  | infinity
  | int (i : Int)
  deriving Repr, DecidableEq, Inhabited

/-- The expression `Math.round((done / total) * 100)` for a count `done` and an
integer `total`: `0 / 0` is NaN, `done / 0` is Infinity, and `Math.round`
keeps both; otherwise the quotient is rounded half up. The quotient is taken
exactly here, the script computes it in IEEE-754 doubles. -/
def roundPercent (done : Nat) (total : Int) : Percent :=
  if total = 0 then (if done = 0 then .nan else .infinity)
  else .int (Int.fdiv (200 * (done : Int) + total) (2 * total))

/-- ToString of a percentage. -/
def Percent.toText : Percent → String
  | .nan => "NaN"
  | .infinity => "Infinity"
  | .int i => toString i

/-! ## The page and the world -/

/-- An element matched by `.res-item`. -/
structure ResItem where
  /-- The value of `el.dataset.id`, `none` when the attribute is absent. -/
  dataId : Option String
  /-- Whether the class list holds `done`. -/
  done : Bool
  deriving Repr, DecidableEq, Inhabited

/-- What was last assigned to the `innerHTML` of the element `viewer-content`:
the empty string, the PDF template or the video template. A template carries
the text that was pasted, unescaped, between the double quotes of its `src`
attribute; the elements and attributes the HTML parser builds from the
markup are not modelled, so `pasted` is the argument of the call and not, in
general, the `src` that is bound (see `srcValueText`). For the PDF template
`loadingShown` tells whether the loading placeholder, which precedes the
pasted text, is displayed; for the video template `paused` tells whether
`pause` has been called on the first video element of the markup, if any. -/
inductive Content where
  | empty
  | pdf (pasted : String) (loadingShown : Bool)
  | video (pasted : String) (paused : Bool)
  deriving Repr, DecidableEq, Inhabited

/-- The text the HTML parser takes as the value of the attribute `src` when
`pasted` stands between the double quotes of a template: the value ends at the
first double quote of `pasted`, or at the quote of the template when there is
none. Character references in this text are still to be decoded. -/
def srcValueText (pasted : String) : String :=
  String.mk (pasted.toList.takeWhile (fun c => decide (c ≠ '"')))

/-- The parts of the document the script reads or writes. An element the page
does not have is `none`. -/
structure Page where
  items : List ResItem
  /-- Text of `s-done`. -/
  sDone : Option String
  /-- Text of `s-total`. -/
  sTotal : Option String
  /-- Text of `s-pct`. -/
  sPct : Option String
  /-- Whether `videoModeToggle` has class `active`. -/
  videoModeToggle : Option Bool
  /-- Text of `videoModeText`. -/
  videoModeText : Option String
  /-- Whether `viewer` has class `open`. -/
  viewer : Option Bool
  viewerContent : Option Content
  /-- The style `overflow` of the body. -/
  bodyOverflow : String
  deriving Repr, DecidableEq, Inhabited

/-- The overlay states of the specification, read off the page. An open state
carries the argument of the call that opened it, which is the text pasted
into the template. -/
inductive Overlay where
  | closed
  | openPDF (pasted : String)
  | openVideo (pasted : String)
  deriving Repr, DecidableEq, Inhabited

/-- Everything the script can observe or change. -/
structure World where
  /-- The variable `data`, an ordinary object. -/
  data : Obj
  /-- The variable `videoMode`. -/
  videoMode : String
  /-- The entries of `localStorage`. -/
  storage : List (String × String)
  page : Page
  /-- Calls of `showToast`, newest first, as (message, type). -/
  toasts : List (String × String)
  /-- First arguments of the calls of `window.open`, newest first. -/
  opened : List PropVal
  /-- Number of `history.pushState` calls. -/
  pushed : Nat
  /-- Number of `location.reload` calls. -/
  reloads : Nat
  /-- Files offered for download, newest first, as (name, contents). -/
  downloads : List (String × String)
  /-- Which of `updateProgressRing`, `updateChapterProgress` the host page defines. -/
  hostFunctions : List String
  /-- Calls of host page functions, newest first. -/
  hostCalls : List String
  deriving Inhabited

/-- Outcome of a function that can raise: the world reached, or the error
together with the world at the moment it was raised. -/
abbrev Result := Except (JSError × World) World

/-- The overlay state shown by a page: closed unless `viewer` is open. -/
def Page.overlay (p : Page) : Overlay :=
  match p.viewer, p.viewerContent with
  | some true, some (.pdf url _) => .openPDF url
  | some true, some (.video url _) => .openVideo url
  | _, _ => .closed

/-! ## Storage -/

/-- Storage key with version for cache busting. -/
def KEY : String := "math_hub_v7"

/-- Storage key of the video source preference. -/
def VIDEO_MODE_KEY : String := "math_hub_video_mode"

/-- The call `localStorage.getItem(key)`, `none` for null. -/
def getItem : List (String × String) → String → Option String
  | [], _ => none
  | (k, v) :: rest, key => if k = key then some v else getItem rest key

/-- The call `localStorage.setItem(key, value)`. -/
def setItem : List (String × String) → String → String → List (String × String)
  | [], key, value => [(key, value)]
  | (k, v) :: rest, key, value =>
    if k = key then (k, value) :: rest else (k, v) :: setItem rest key value

/-- Video URL mappings, local path to Google Drive URL. -/
def VIDEO_URLS : Obj :=
  [("2.1/Complex Variables (Concet & Math).mkv",
      .str "https://drive.google.com/file/d/1fBMK8NLNTg58huMihkZzhiH1hSWBkTee/view"),
   ("2.2/Harmonic Function Concepts.mp4",
      .str "https://drive.google.com/file/d/1j2JUunSzYiy1H1Uk1cJ26FEf8TTxlN3g/view"),
   ("2.2/Harmonic Function (Concept and Math).mp4",
      .str "https://drive.google.com/file/d/1-mKI6eZgVTC5mHdOxOVmdkAIOJIfWaTQ/view"),
   ("3.1/Fourier Series 01.mkv", .null),
   ("3.1/Fourier Series 02.mkv",
      .str "https://drive.google.com/file/d/1zoVwsl-GUm6ZGXopUE8wSSbOmnQjKOO2/view"),
   ("3.1/Fourier Series 03.mkv",
      .str "https://drive.google.com/file/d/1UTCNujvNz-xkbPax9mvHg9oHlsyXP-ZG/view"),
   ("3.1/Fourier Transform.mp4",
      .str "https://drive.google.com/file/d/18Sl13FwnO-jfKSYzUXUrSETmMC5AwlAd/view")]

/-! ## Start-up -/

/-- The initialiser `JSON.parse(localStorage.getItem(KEY)) || {}`. A missing
entry is null, which `JSON.parse` reads as the text `null`. -/
def initData (storage : List (String × String)) : Except JSError JVal :=
  match JSON.parse ((getItem storage KEY).getD "null") with
  | .ok v => .ok (if truthy v then v else .obj [])
  | .error e => .error e

/-- The initialiser `localStorage.getItem(VIDEO_MODE_KEY) || 'local'`. -/
def initVideoMode (storage : List (String × String)) : String :=
  match getItem storage VIDEO_MODE_KEY with
  | some s => if s = "" then "local" else s
  | none => "local"

/-- Evaluation of the top-level declarations of the script, in order: `data`,
then `videoMode`. An error raised by the first aborts the script, so the second
is never initialised. -/
def loadScript (storage : List (String × String)) : Except JSError (JVal × String) :=
  match initData storage with
  | .ok d => .ok (d, initVideoMode storage)
  | .error e => .error e

/-! ## Toasts and the video mode -/

/-- The function `showToast(message, type)`: the toast replaces the one shown.
The timers that animate and remove it are not modelled. -/
def showToast (w : World) (message : String) (type : String) : World :=
  { w with toasts := (message, type) :: w.toasts }

/-- Update toggle button UI. -/
def updateVideoModeUI (w : World) : World :=
  let toggleBtn := match w.page.videoModeToggle with
    | some _ => some (decide (w.videoMode = "drive"))
    | none => none
  let toggleText := match w.page.videoModeText with
    | some _ => some (if w.videoMode = "local" then "Local" else "Drive")
    | none => none
  { w with page := { w.page with videoModeToggle := toggleBtn, videoModeText := toggleText } }

/-- Toggle video source mode. -/
def toggleVideoMode (w : World) : World :=
  let mode := if w.videoMode = "local" then "drive" else "local"
  let w1 := { w with videoMode := mode, storage := setItem w.storage VIDEO_MODE_KEY mode }
  let w2 := updateVideoModeUI w1
  showToast w2 (if w2.videoMode = "local" then "📁 Using local videos" else "☁️ Using Google Drive")
    "success"

/-! ## Core functions -/

/-- The property key read for an item: `el.dataset.id`, which is `undefined`
and so the key `undefined` when the attribute is absent. -/
def ResItem.key (el : ResItem) : String := el.dataId.getD "undefined"

/-- The function `refresh`. -/
def refresh (w : World) : World :=
  let items := w.page.items.map (fun el => { el with done := (getProp w.data el.key).truthy })
  let done := (w.page.items.filter (fun el => (getProp w.data el.key).truthy)).length
  let doneEl := match w.page.sDone with
    | some _ => some (toString done)
    | none => none
  let pctEl := match w.page.sPct, w.page.sTotal with
    | some _, some totalText =>
      let total : Int := match parseInt totalText with
        | some t => if t = 0 then (w.page.items.length : Int) else t
        | none => (w.page.items.length : Int)
      some ((roundPercent done total).toText ++ "%")
    | pct, _ => pct
  { w with page := { w.page with items := items, sDone := doneEl, sPct := pctEl } }

/-- The function `save`. -/
def save (w : World) : World :=
  refresh { w with storage := setItem w.storage KEY (JSON.stringify (.obj w.data)) }

/-- The function `toggle(id)`. -/
def toggle (w : World) (id : String) : World :=
  let w1 := { w with data := assignBool w.data id (!(getProp w.data id).truthy) }
  let w2 := save w1
  showToast w2
    (if (getProp w2.data id).truthy then "✅ Marked as complete!" else "↩️ Marked as incomplete")
    "success"

/-! ## Viewer functions -/

/-- The function `openPDF(url)`: the PDF template with `url` pasted in is
assigned to the content. Writing to a missing element raises a TypeError. -/
def openPDF (w : World) (url : String) : Result :=
  match w.page.viewerContent with
  | none => .error (.typeError, w)
  | some _ =>
    let w1 := { w with page := { w.page with viewerContent := some (.pdf url true) } }
    match w1.page.viewer with
    | none => .error (.typeError, w1)
    | some _ =>
      .ok { w1 with
        page := { w1.page with viewer := some true, bodyOverflow := "hidden" },
        pushed := w1.pushed + 1 }

/-- The function `openVideo(localUrl)`. In the local branch the video template
with `localUrl` pasted in, unescaped, is assigned to the content. The key
listener attached to the video element, if the markup has one, (fullscreen,
seeking) is not modelled. -/
def openVideo (w : World) (localUrl : String) : Result :=
  let driveUrl := getProp VIDEO_URLS localUrl
  if w.videoMode = "drive" ∧ driveUrl.truthy = true then
    .ok { w with opened := driveUrl :: w.opened }
  else
    match w.page.viewerContent with
    | none => .error (.typeError, w)
    | some _ =>
      let w1 := { w with page := { w.page with viewerContent := some (.video localUrl false) } }
      match w1.page.viewer with
      | none => .error (.typeError, w1)
      | some _ =>
        .ok { w1 with
          page := { w1.page with viewer := some true, bodyOverflow := "hidden" },
          pushed := w1.pushed + 1 }

/-- The function `hideLoading`. -/
def hideLoading (w : World) : World :=
  match w.page.viewerContent with
  | some (.pdf url _) => { w with page := { w.page with viewerContent := some (.pdf url false) } }
  | _ => w

/-- The function `closeViewer`. It reads `content.querySelector` and
`viewer.classList` without a check, so a missing element raises a TypeError. -/
def closeViewer (w : World) : Result :=
  match w.page.viewerContent with
  | none => .error (.typeError, w)
  | some content =>
    let paused := match content with
      | .video url _ => Content.video url true
      | c => c
    let w1 := { w with page := { w.page with viewerContent := some paused } }
    match w1.page.viewer with
    | none => .error (.typeError, w1)
    | some _ =>
      .ok { w1 with
        page := { w1.page with viewer := some false, viewerContent := some .empty,
                               bodyOverflow := "" } }

/-! ## Progress reset, export and import -/

/-- Call a host page function when `typeof` finds it. -/
def callHost (w : World) (name : String) : World :=
  if name ∈ w.hostFunctions then { w with hostCalls := name :: w.hostCalls } else w

/-- The function `resetProgress`; `confirmed` is the answer to `confirm`. -/
def resetProgress (w : World) (confirmed : Bool) : World :=
  if confirmed then
    let w1 := save { w with data := [] }
    let w2 := showToast w1 "Progress reset successfully" "info"
    callHost (callHost w2 "updateProgressRing") "updateChapterProgress"
  else w

/-- The tracked ids of `calculateTotalProgress`. -/
def allIds : List String :=
  ["21v1", "21p1", "21p2", "21p3",
   "22v1", "22v2", "22p1",
   "31v1", "31v2", "31v3", "31v4", "31p1", "31p2"]

/-- The result object of `calculateTotalProgress`. -/
structure Progress where
  done : Nat
  total : Nat
  percentage : Percent
  deriving Repr, DecidableEq, Inhabited

/-- Calculate total progress across all chapters. -/
def calculateTotalProgress (w : World) : Progress :=
  let done := (allIds.filter (fun id => (getProp w.data id).truthy)).length
  { done := done, total := allIds.length, percentage := roundPercent done (allIds.length : Int) }

/-- Export progress (for backup). -/
def exportProgress (w : World) : World :=
  let dataStr := JSON.stringifyIndented (.obj w.data)
  showToast { w with downloads := ("math-hub-progress.json", dataStr) :: w.downloads }
    "📥 Progress exported!" "success"

/-- Import progress (from backup): the `onload` callback of the reader, run on
the text of the file. -/
def importProgress (w : World) (contents : String) : World :=
  match JSON.parse contents with
  | .ok imported =>
    let w1 := save { w with data := spread w.data imported }
    let w2 := showToast w1 "📤 Progress imported!" "success"
    { w2 with reloads := w2.reloads + 1 }
  | .error _ => showToast w "❌ Invalid file format" "error"

/-! ## Event listeners -/

/-- Keyboard shortcuts: the `keydown` listener of the document. -/
def onKeydown (w : World) (key : String) : Result :=
  if key = "Escape" then closeViewer w else .ok w

/-- History navigation: the `popstate` listener of the window. -/
def onPopstate (w : World) : Result :=
  match w.page.viewer with
  | some true => closeViewer w
  | _ => .ok w

/-- Initialize on page load: the `DOMContentLoaded` listener. The animation
delays it sets are not modelled. -/
def onDOMContentLoaded (w : World) : World :=
  updateVideoModeUI (refresh w)

/-! ## Sample worlds -/

/-- A page that has none of the elements the script looks up. -/
def barePage : Page :=
  { items := [], sDone := none, sTotal := none, sPct := none, videoModeToggle := none,
    videoModeText := none, viewer := none, viewerContent := none, bodyOverflow := "" }

/-- A page with three resource items, the stat counters, the video mode toggle
and a closed viewer. -/
def chapterPage : Page :=
  { items := [⟨some "21v1", false⟩, ⟨some "21p1", false⟩, ⟨some "21p2", false⟩],
    sDone := some "0", sTotal := some "3", sPct := some "0%",
    videoModeToggle := some false, videoModeText := some "Local",
    viewer := some false, viewerContent := some .empty, bodyOverflow := "" }

/-- The world right after the script has loaded with `data` as its progress
map, local video mode and nothing stored. -/
def freshWorld (data : Obj) : World :=
  { data := data, videoMode := "local", storage := [], page := chapterPage, toasts := [],
    opened := [], pushed := 0, reloads := 0, downloads := [], hostFunctions := [],
    hostCalls := [] }

/-- The world of `freshWorld` after `save`. -/
def savedWorld (data : Obj) : World := save (freshWorld data)

/-- The blob stored under `KEY` is the serialization of `data` and parses to an
object whose values are all booleans. -/
def storedAllBool (w : World) : Prop :=
  getItem w.storage KEY = some (JSON.stringify (.obj w.data)) ∧
  ∃ d, JSON.parse (JSON.stringify (.obj w.data)) = .ok (.obj d) ∧ allBool d

/-! ## Facts about objects -/

theorem getOwn_updateOwn (o : Obj) (k k2 : String) (v : JVal) :
    getOwn (updateOwn o k v) k2 =
      if k = k2 then (if (getOwn o k).isSome then some v else none) else getOwn o k2 := by
  induction o with
  | nil => simp [updateOwn, getOwn]
  | cons p rest ih =>
    obtain ⟨a, w⟩ := p
    by_cases hak : a = k
    · subst hak
      by_cases h2 : a = k2
      · simp [updateOwn, getOwn, h2]
      · simp [updateOwn, getOwn, h2]
    · by_cases h2 : a = k2
      · subst h2
        have hk : ¬ k = a := fun h => hak h.symm
        simp [updateOwn, getOwn, hak, hk]
      · simp [updateOwn, getOwn, hak, h2, ih]

theorem getOwn_append (o q : Obj) (k : String) :
    getOwn (o ++ q) k = match getOwn o k with
      | some v => some v
      | none => getOwn q k := by
  induction o with
  | nil => simp [getOwn]
  | cons p rest ih =>
    obtain ⟨a, w⟩ := p
    by_cases h : a = k
    · simp [getOwn, h]
    · simp [getOwn, h, ih]

theorem getOwn_insertIndex_ne (o : Obj) (i : Nat) (k k2 : String) (v : JVal) (h : k ≠ k2) :
    getOwn (insertIndex o i k v) k2 = getOwn o k2 := by
  induction o with
  | nil => simp [insertIndex, getOwn, h]
  | cons p rest ih =>
    obtain ⟨a, w⟩ := p
    simp only [insertIndex]
    split
    · split
      · simp [getOwn, ih]
      · simp [getOwn, h]
    · simp [getOwn, h]

theorem getOwn_insertIndex_same (o : Obj) (i : Nat) (k : String) (v : JVal)
    (h : getOwn o k = none) : getOwn (insertIndex o i k v) k = some v := by
  induction o with
  | nil => simp [insertIndex, getOwn]
  | cons p rest ih =>
    obtain ⟨a, w⟩ := p
    have hak : ¬ a = k := by
      intro e
      simp [getOwn, e] at h
    have hrest : getOwn rest k = none := by
      simpa [getOwn, hak] using h
    simp only [insertIndex]
    split
    · split
      · simp [getOwn, hak, ih hrest]
      · simp [getOwn]
    · simp [getOwn]

/-- Reading back after defining an own property. -/
theorem getOwn_setOwn (o : Obj) (k k2 : String) (v : JVal) :
    getOwn (setOwn o k v) k2 = if k = k2 then some v else getOwn o k2 := by
  unfold setOwn
  cases hk : getOwn o k with
  | some u =>
    simp only [getOwn_updateOwn, hk]
    simp
  | none =>
    simp only
    cases hi : arrayIndex? k with
    | some i =>
      simp only
      by_cases h : k = k2
      · subst h
        simp [getOwn_insertIndex_same o i k v hk]
      · simp [getOwn_insertIndex_ne o i k k2 v h, h]
    | none =>
      simp only [getOwn_append]
      by_cases h : k = k2
      · subst h
        simp [hk, getOwn]
      · cases h2 : getOwn o k2 <;> simp [getOwn, h, h2]

theorem getOwn_eq_none_iff (o : Obj) (k : String) :
    getOwn o k = none ↔ k ∉ o.map Prod.fst := by
  induction o with
  | nil => simp [getOwn]
  | cons p rest ih =>
    obtain ⟨a, w⟩ := p
    by_cases h : a = k
    · simp [getOwn, h]
    · have h2 : ¬ k = a := fun e => h e.symm
      simp [getOwn, h, h2, ih]

theorem keys_updateOwn (o : Obj) (k : String) (v : JVal) :
    (updateOwn o k v).map Prod.fst = o.map Prod.fst := by
  induction o with
  | nil => simp [updateOwn]
  | cons p rest ih =>
    obtain ⟨a, w⟩ := p
    by_cases h : a = k
    · simp [updateOwn, h]
    · simp [updateOwn, h, ih]

theorem keys_insertIndex_perm (o : Obj) (i : Nat) (k : String) (v : JVal) :
    ((insertIndex o i k v).map Prod.fst).Perm (k :: o.map Prod.fst) := by
  induction o with
  | nil => simp [insertIndex]
  | cons p rest ih =>
    obtain ⟨a, w⟩ := p
    simp only [insertIndex]
    split
    · split
      · simp only [List.map_cons]
        exact (List.Perm.cons a ih).trans (List.Perm.swap k a _)
      · simp
    · simp

/-- Defining an own property keeps the keys distinct. -/
theorem wf_setOwn {o : Obj} (h : o.WF) (k : String) (v : JVal) : Obj.WF (setOwn o k v) := by
  unfold setOwn Obj.WF
  cases hk : getOwn o k with
  | some u => simpa [keys_updateOwn] using h
  | none =>
    have hnot : k ∉ o.map Prod.fst := (getOwn_eq_none_iff o k).1 hk
    simp only
    cases hi : arrayIndex? k with
    | some i =>
      simp only
      exact (keys_insertIndex_perm o i k v).nodup_iff.2 (List.nodup_cons.2 ⟨hnot, h⟩)
    | none =>
      simp only [List.map_append, List.map_cons, List.map_nil]
      refine List.Nodup.append h (by simp) ?_
      intro a ha hb
      have e : a = k := by simpa using hb
      exact hnot (e ▸ ha)

theorem wf_nil : Obj.WF [] := by simp [Obj.WF]

theorem wf_copyProps {t : Obj} (h : t.WF) (src : Obj) : Obj.WF (copyProps t src) := by
  unfold copyProps
  induction src generalizing t with
  | nil => simpa using h
  | cons p rest ih => simpa using ih (wf_setOwn h p.1 p.2)

/-- Copying the properties of a well-formed source: the source wins. -/
theorem getOwn_copyProps (t src : Obj) (hs : src.WF) (k : String) :
    getOwn (copyProps t src) k = match getOwn src k with
      | some v => some v
      | none => getOwn t k := by
  unfold copyProps
  induction src generalizing t with
  | nil => simp [getOwn]
  | cons p rest ih =>
    obtain ⟨a, w⟩ := p
    have hrest : Obj.WF rest := by
      unfold Obj.WF at hs ⊢
      exact (List.nodup_cons.1 (by simpa using hs)).2
    have ha : a ∉ rest.map Prod.fst := by
      unfold Obj.WF at hs
      exact (List.nodup_cons.1 (by simpa using hs)).1
    simp only [List.foldl_cons]
    rw [ih _ hrest]
    by_cases h : a = k
    · subst h
      have hn : getOwn rest a = none := (getOwn_eq_none_iff rest a).2 ha
      simp [hn, getOwn, getOwn_setOwn]
    · have h2 : ¬ k = a := fun e => h e.symm
      simp only [getOwn, h, if_false, getOwn_setOwn]

/-- A copy of a well-formed object has the same properties. -/
theorem getOwn_copyProps_nil (src : Obj) (hs : src.WF) (k : String) :
    getOwn (copyProps [] src) k = getOwn src k := by
  rw [getOwn_copyProps [] src hs k]
  cases getOwn src k <;> simp [getOwn]

/-- Lookup in `{ ...a, ...b }` for an object `b`. -/
theorem getOwn_spread_obj (a b : Obj) (ha : a.WF) (hb : b.WF) (k : String) :
    getOwn (spread a (.obj b)) k = match getOwn b k with
      | some v => some v
      | none => getOwn a k := by
  unfold spread
  simp only [ownProps]
  rw [getOwn_copyProps _ b hb k, getOwn_copyProps_nil a ha k]

theorem getItem_setItem_same (s : List (String × String)) (k v : String) :
    getItem (setItem s k v) k = some v := by
  induction s with
  | nil => simp [setItem, getItem]
  | cons p rest ih =>
    obtain ⟨a, w⟩ := p
    by_cases h : a = k
    · simp [setItem, getItem, h]
    · simp [setItem, getItem, h, ih]

theorem getItem_setItem_ne (s : List (String × String)) (k k2 v : String) (h : k ≠ k2) :
    getItem (setItem s k v) k2 = getItem s k2 := by
  induction s with
  | nil => simp [setItem, getItem, h]
  | cons p rest ih =>
    obtain ⟨a, w⟩ := p
    by_cases h1 : a = k
    · subst h1
      simp [setItem, getItem, h]
    · by_cases h2 : a = k2
      · subst h2
        simp [setItem, getItem, h1]
      · simp [setItem, getItem, h1, h2, ih]

/-! ## Facts about the JSON functions -/

namespace JSON

theorem skipWs_of_not_ws (c : Char) (cs : List Char) (h : isWs c = false) :
    skipWs (c :: cs) = c :: cs := by
  simp [skipWs, h]

theorem skipWs_append (ws cs : List Char) (h : ∀ c ∈ ws, isWs c = true) :
    skipWs (ws ++ cs) = skipWs cs := by
  induction ws with
  | nil => rfl
  | cons c rest ih =>
    have hc : isWs c = true := h c (by simp)
    have hr : ∀ d ∈ rest, isWs d = true := fun d hd => h d (by simp [hd])
    simp [skipWs, hc, ih hr]

theorem hexVal_hexDigit (n : Nat) (h : n < 16) : hexVal (hexDigit n) = some n := by
  interval_cases n <;> rfl

theorem char_eq_of_toNat (c : Char) (n : Nat) (h : c.toNat = n) : Char.ofNat n = c := by
  rw [← h]
  exact Char.ofNat_toNat c

/-- Reading one escaped character gives the character back. -/
theorem parseStr_escapeChar (c : Char) (n : Nat) (rest : List Char) :
    parseStr (n + 1) (escapeChar c ++ rest) =
      match parseStr n rest with
      | some (s, r) => some (c :: s, r)
      | none => none := by
  by_cases hlt : c.toNat < 32
  · obtain ⟨m, hm⟩ : ∃ m, c.toNat = m := ⟨_, rfl⟩
    have hc := char_eq_of_toNat c m hm
    rw [hm] at hlt
    subst hc
    clear hm
    interval_cases m <;> rfl
  · have h8 : c.toNat ≠ 8 := by omega
    have h9 : c.toNat ≠ 9 := by omega
    have h10 : c.toNat ≠ 10 := by omega
    have h12 : c.toNat ≠ 12 := by omega
    have h13 : c.toNat ≠ 13 := by omega
    by_cases hq : c = '"'
    · subst hq
      rfl
    · by_cases hb : c = '\\'
      · subst hb
        rfl
      · simp [escapeChar, parseStr, hq, hb, h8, h9, h10, h12, h13, hlt]

theorem length_le_escape (s : List Char) : s.length ≤ (escape s).length := by
  induction s with
  | nil => simp [escape]
  | cons c cs ih =>
    have h : 1 ≤ (escapeChar c).length := by
      unfold escapeChar
      split_ifs <;> simp
    simp only [escape, List.length_append, List.length_cons]
    omega

/-- Reading a quoted string gives the string back. -/
theorem parseStr_escape (s : List Char) (n : Nat) (rest : List Char) (h : s.length < n) :
    parseStr n (escape s ++ '"' :: rest) = some (s, rest) := by
  induction s generalizing n with
  | nil =>
    obtain ⟨m, rfl⟩ : ∃ m, n = m + 1 := ⟨n - 1, by simp at h; omega⟩
    simp [escape, parseStr]
  | cons c cs ih =>
    obtain ⟨m, rfl⟩ : ∃ m, n = m + 1 := ⟨n - 1, by simp at h; omega⟩
    have hm : cs.length < m := by simp at h; omega
    simp only [escape, List.append_assoc]
    rw [parseStr_escapeChar, ih m hm]

theorem isWs_quote : isWs '"' = false := by decide

theorem parseValue_bool (gap ind : List Char) (n : Nat) (ws rest : List Char) (b : Bool)
    (hws : ∀ c ∈ ws, isWs c = true) :
    parseValue (n + 1) (ws ++ (serialize gap ind (.bool b) ++ rest)) = some (.bool b, rest) := by
  cases b
  · have h : skipWs (ws ++ (serialize gap ind (.bool false) ++ rest))
        = 'f' :: 'a' :: 'l' :: 's' :: 'e' :: rest := by
      rw [skipWs_append ws _ hws]
      rfl
    rw [parseValue, h]
    rfl
  · have h : skipWs (ws ++ (serialize gap ind (.bool true) ++ rest))
        = 't' :: 'r' :: 'u' :: 'e' :: rest := by
      rw [skipWs_append ws _ hws]
      rfl
    rw [parseValue, h]
    rfl

theorem serializeMembers_single (gap ind : List Char) (k : String) (b : Bool) :
    serializeMembers gap ind [(k, .bool b)] = memberText gap ind k b := by
  simp [serializeMembers, memberText]

theorem serializeMembers_cons (gap ind : List Char) (k : String) (b : Bool)
    (q : String × JVal) (rest : Obj) :
    serializeMembers gap ind ((k, .bool b) :: q :: rest) =
      memberText gap ind k b ++ (separator gap ind ++ serializeMembers gap ind (q :: rest)) := by
  simp [serializeMembers, memberText]

/-- Parsing one serialized member up to what follows its value. -/
theorem parseMembers_member (gap ind : List Char) (n : Nat) (k : String) (b : Bool)
    (pre after : List Char) (acc : Obj) (hpre : ∀ c ∈ pre, isWs c = true) :
    parseMembers (n + 2) (pre ++ (memberText gap ind k b ++ after)) acc =
      match skipWs after with
      | ',' :: r4 => parseMembers (n + 1) r4 (setOwn acc k (.bool b))
      | '}' :: r4 => some (.obj (setOwn acc k (.bool b)), r4)
      | _ => none := by
  have hsp : ∀ c ∈ (if gap = [] then [] else [' ']), isWs c = true := by
    intro c hc
    split_ifs at hc
    · simp at hc
    · have e : c = ' ' := by simpa using hc
      subst e
      decide
  have hin : pre ++ (memberText gap ind k b ++ after) =
      pre ++ ('"' :: (escape k.toList ++ '"' :: (':' ::
        ((if gap = [] then [] else [' ']) ++ (serialize gap ind (.bool b) ++ after))))) := by
    simp [memberText, quote]
  have hlen : k.toList.length < (escape k.toList ++ '"' :: (':' ::
        ((if gap = [] then [] else [' ']) ++ (serialize gap ind (.bool b) ++ after)))).length := by
    have := length_le_escape k.toList
    simp only [List.length_append, List.length_cons]
    omega
  rw [hin, parseMembers, skipWs_append _ _ hpre, skipWs_of_not_ws _ _ isWs_quote]
  simp only
  rw [parseStr_escape k.toList _ _ hlen]
  simp only
  rw [skipWs_of_not_ws ':' _ (by decide)]
  simp only
  rw [parseValue_bool gap ind n _ after b hsp]
  rfl

theorem isWs_separator_tail (gap ind : List Char) (hind : ∀ c ∈ ind, isWs c = true) :
    ∃ ws, separator gap ind = ',' :: ws ∧ ∀ c ∈ ws, isWs c = true := by
  unfold separator
  split_ifs
  · exact ⟨[], rfl, by simp⟩
  · refine ⟨'\n' :: ind, rfl, ?_⟩
    intro c hc
    rcases List.mem_cons.1 hc with e | e
    · subst e
      decide
    · exact hind c e

/-- Parsing the serialized members of a map of booleans defines each of them,
in order, on the accumulator. -/
theorem parseMembers_serializeMembers (gap ind : List Char)
    (hind : ∀ c ∈ ind, isWs c = true) (m : Obj) (hne : m ≠ []) (hbool : allBool m)
    (n : Nat) (acc : Obj) (pre post tail : List Char)
    (hpre : ∀ c ∈ pre, isWs c = true) (hpost : ∀ c ∈ post, isWs c = true)
    (hn : m.length < n) :
    parseMembers n (pre ++ (serializeMembers gap ind m ++ (post ++ '}' :: tail))) acc =
      some (.obj (copyProps acc m), tail) := by
  induction m generalizing n acc pre with
  | nil => exact absurd rfl hne
  | cons p rest ih =>
    obtain ⟨k, v⟩ := p
    obtain ⟨b, hb⟩ := hbool (k, v) (by simp)
    simp only at hb
    subst hb
    have hrestBool : allBool rest := fun q hq => hbool q (by simp [hq])
    cases rest with
    | nil =>
      obtain ⟨j, rfl⟩ : ∃ j, n = j + 2 := ⟨n - 2, by simp at hn; omega⟩
      rw [serializeMembers_single, parseMembers_member gap ind j k b pre _ acc hpre,
        skipWs_append post _ hpost, skipWs_of_not_ws _ _ (by decide)]
      rfl
    | cons q rest2 =>
      obtain ⟨j, rfl⟩ : ∃ j, n = j + 2 := ⟨n - 2, by simp at hn; omega⟩
      obtain ⟨ws, hsep, hws⟩ := isWs_separator_tail gap ind hind
      rw [serializeMembers_cons, List.append_assoc,
        parseMembers_member gap ind j k b pre _ acc hpre, hsep]
      simp only [List.cons_append, List.append_assoc]
      rw [skipWs_of_not_ws _ _ (by decide)]
      simp only
      rw [ih (by simp) hrestBool (j + 1) (setOwn acc k (.bool b)) ws hws (by simp at hn ⊢; omega)]
      rfl

theorem serializeMembers_head (gap ind : List Char) (m : Obj) (hne : m ≠ []) :
    ∃ r, serializeMembers gap ind m = '"' :: r := by
  cases m with
  | nil => exact absurd rfl hne
  | cons p rest =>
    obtain ⟨k, v⟩ := p
    cases rest with
    | nil => exact ⟨_, by simp [serializeMembers, quote]; rfl⟩
    | cons q rest2 => exact ⟨_, by simp [serializeMembers, quote]; rfl⟩

theorem length_le_serializeMembers (gap ind : List Char) (m : Obj) :
    m.length ≤ (serializeMembers gap ind m).length := by
  induction m with
  | nil => simp
  | cons p rest ih =>
    obtain ⟨k, v⟩ := p
    cases rest with
    | nil => simp [serializeMembers, quote]
    | cons q rest2 =>
      simp only [serializeMembers, quote, List.length_append, List.length_cons] at ih ⊢
      omega

theorem parseValue_object (n : Nat) (rest r : List Char) (c : Char)
    (h : skipWs rest = c :: r) (hc : c ≠ '}') :
    parseValue (n + 1) ('{' :: rest) = parseMembers n rest [] := by
  rw [parseValue, skipWs_of_not_ws _ _ (by decide)]
  simp only [if_true]
  rw [h]
  split
  · next heq =>
    have e : c = '}' := by
      have := List.cons.inj heq
      exact this.1
    exact absurd e hc
  · rfl

theorem parse_mk (l : List Char) :
    parse (String.mk l) =
      match parseValue (2 * l.length + 2) l with
      | some (v, rest) => if skipWs rest = [] then .ok v else .error .syntaxError
      | none => .error .syntaxError := rfl

/-- Parsing the serialization of a map of booleans, whatever white space the
gap consists of, gives an object with the same members. -/
theorem parse_serialize_boolMap (gap : List Char) (hgap : ∀ c ∈ gap, isWs c = true)
    (m : Obj) (hbool : allBool m) :
    parse (String.mk (serialize gap [] (.obj m))) = .ok (.obj (copyProps [] m)) := by
  by_cases hne : m = []
  · subst hne
    rfl
  · obtain ⟨r, hr⟩ := serializeMembers_head gap ([] ++ gap) m hne
    have hlen := length_le_serializeMembers gap ([] ++ gap) m
    have hind : ∀ c ∈ ([] ++ gap), isWs c = true := by simpa using hgap
    have hser : serialize gap [] (.obj m) =
        wrap gap [] ([] ++ gap) '{' '}' (serializeMembers gap ([] ++ gap) m) := by
      cases m with
      | nil => exact absurd rfl hne
      | cons p rest => rfl
    rw [parse_mk, hser]
    by_cases hg : gap = []
    · subst hg
      have hw : wrap [] [] ([] ++ []) '{' '}' (serializeMembers [] ([] ++ []) m) =
          '{' :: ([] ++ (serializeMembers [] ([] ++ []) m ++ ([] ++ '}' :: []))) := by
        simp [wrap]
      have hskip : skipWs ([] ++ (serializeMembers [] ([] ++ []) m ++ ([] ++ '}' :: []))) =
          '"' :: (r ++ ([] ++ '}' :: [])) := by
        rw [hr]
        rfl
      rw [hw, parseValue_object _ _ _ _ hskip (by decide),
        parseMembers_serializeMembers [] ([] ++ []) hind m hne hbool _ [] [] [] []
        (by simp) (by simp) (by simp only [List.length_cons, List.length_append]; omega)]
      rfl
    · have hw : wrap gap [] ([] ++ gap) '{' '}' (serializeMembers gap ([] ++ gap) m) =
          '{' :: (('\n' :: gap) ++ (serializeMembers gap ([] ++ gap) m ++ (['\n'] ++ '}' :: []))) := by
        simp [wrap, hg]
      have hpre : ∀ c ∈ ('\n' :: gap), isWs c = true := by
        intro c hc
        rcases List.mem_cons.1 hc with e | e
        · subst e
          decide
        · exact hgap c e
      have hpost : ∀ c ∈ ['\n'], isWs c = true := by
        intro c hc
        have e : c = '\n' := by simpa using hc
        subst e
        decide
      have hskip : skipWs (('\n' :: gap) ++ (serializeMembers gap ([] ++ gap) m ++ (['\n'] ++ '}' :: []))) =
          '"' :: (r ++ (['\n'] ++ '}' :: [])) := by
        rw [skipWs_append _ _ hpre, hr]
        rfl
      rw [hw, parseValue_object _ _ _ _ hskip (by decide),
        parseMembers_serializeMembers gap ([] ++ gap) hind m hne hbool _ [] ('\n' :: gap)
        ['\n'] [] hpre hpost (by simp only [List.length_cons, List.length_append]; omega)]
      rfl

/-- Reading back `JSON.stringify(m, null, 2)` for a map of booleans. -/
theorem parse_stringifyIndented (m : Obj) (hbool : allBool m) :
    parse (stringifyIndented (.obj m)) = .ok (.obj (copyProps [] m)) :=
  parse_serialize_boolMap [' ', ' '] (by decide) m hbool

/-- Reading back `JSON.stringify(m)` for a map of booleans. -/
theorem parse_stringify (m : Obj) (hbool : allBool m) :
    parse (stringify (.obj m)) = .ok (.obj (copyProps [] m)) :=
  parse_serialize_boolMap [] (by simp) m hbool

/-- The members parsed onto a well-formed accumulator form a well-formed object. -/
theorem parseMembers_wf (n : Nat) : ∀ (cs : List Char) (acc : Obj) (v : JVal) (r : List Char),
    acc.WF → parseMembers n cs acc = some (v, r) → ∃ ps, v = .obj ps ∧ Obj.WF ps := by
  induction n with
  | zero =>
    intro cs acc v r _ h
    simp [parseMembers] at h
  | succ n ih =>
    intro cs acc v r hacc h
    rw [parseMembers] at h
    split at h
    · split at h
      · exact absurd h (by simp)
      · split at h
        · split at h
          · exact absurd h (by simp)
          · split at h
            · exact ih _ _ _ _ (wf_setOwn hacc _ _) h
            · simp only [Option.some.injEq, Prod.mk.injEq] at h
              exact ⟨_, h.1.symm, wf_setOwn hacc _ _⟩
            · exact absurd h (by simp)
        · exact absurd h (by simp)
    · exact absurd h (by simp)

/-- Array parsing produces an array. -/
theorem parseElements_arr (n : Nat) : ∀ (cs : List Char) (acc : List JVal) (v : JVal)
    (r : List Char), parseElements n cs acc = some (v, r) → ∃ xs, v = .arr xs := by
  induction n with
  | zero =>
    intro cs acc v r h
    simp [parseElements] at h
  | succ n ih =>
    intro cs acc v r h
    rw [parseElements] at h
    split at h
    · exact absurd h (by simp)
    · split at h
      · exact ih _ _ _ _ h
      · simp only [Option.some.injEq, Prod.mk.injEq] at h
        exact ⟨_, h.1.symm⟩
      · exact absurd h (by simp)

/-- An object produced by the parser has pairwise distinct keys. -/
theorem parseValue_obj_wf (n : Nat) (cs : List Char) (ps : Obj) (r : List Char)
    (h : parseValue n cs = some (.obj ps, r)) : Obj.WF ps := by
  cases n with
  | zero => simp [parseValue] at h
  | succ n =>
    rw [parseValue] at h
    split at h
    · exact absurd h (by simp)
    · split_ifs at h
      · split at h
        · simp only [Option.some.injEq, Prod.mk.injEq, JVal.obj.injEq] at h
          rw [← h.1]
          exact wf_nil
        · obtain ⟨qs, hq, hwf⟩ := parseMembers_wf n _ _ _ _ wf_nil h
          cases hq
          exact hwf
      · split at h
        · simp at h
        · obtain ⟨xs, hx⟩ := parseElements_arr n _ _ _ _ h
          cases hx
      · split at h <;> simp at h
      · split at h <;> simp at h
      · split at h <;> simp at h
      · split at h <;> simp at h
      · split at h <;> simp at h

/-- An object returned by `JSON.parse` has pairwise distinct keys. -/
theorem parse_obj_wf (text : String) (ps : Obj) (h : parse text = .ok (.obj ps)) : Obj.WF ps := by
  unfold parse at h
  split at h
  · next v rest hv =>
    split_ifs at h
    · simp only [Except.ok.injEq] at h
      subst h
      exact parseValue_obj_wf _ _ _ _ hv
  · simp at h

end JSON

/-! ## Fuel -/

namespace JSON

theorem skipWs_length_le (cs : List Char) : (skipWs cs).length ≤ cs.length := by
  induction cs with
  | nil => simp [skipWs]
  | cons c rest ih =>
    unfold skipWs
    split_ifs
    · simp only [List.length_cons]
      omega
    · simp

theorem takeDigits_length_le (cs : List Char) : (takeDigits cs).2.length ≤ cs.length := by
  induction cs with
  | nil => simp [takeDigits]
  | cons c rest ih =>
    unfold takeDigits
    split_ifs
    · simp only [List.length_cons]
      omega
    · simp

theorem hex4_length_le (cs : List Char) (u : Nat) (r : List Char) (h : hex4 cs = some (u, r)) :
    r.length ≤ cs.length := by
  unfold hex4 at h
  split at h
  · split at h
    · simp only [Option.some.injEq, Prod.mk.injEq] at h
      rw [← h.2]
      simp only [List.length_cons]
      omega
    · simp at h
  · simp at h

theorem some_pair_snd {α β : Type} {a c : α} {b d : β} (h : some (a, b) = some (c, d)) : b = d := by
  cases h
  rfl

theorem parseLowSurrogate_length_le (u : Nat) (rest1 : List Char) :
    (parseLowSurrogate u rest1).2.length ≤ rest1.length := by
  unfold parseLowSurrogate
  split
  · next rest2 =>
    split
    · next l rest3 hl =>
      have h3 := hex4_length_le _ _ _ hl
      split_ifs
      · simp only [List.length_cons]
        omega
      · exact Nat.le_refl _
    · exact Nat.le_refl _
  · exact Nat.le_refl _

theorem parseUnicodeEscape_length_le (cs : List Char) (c : Char) (r : List Char)
    (h : parseUnicodeEscape cs = some (c, r)) : r.length ≤ cs.length := by
  unfold parseUnicodeEscape at h
  split at h
  · exact absurd h Option.noConfusion
  · next u rest1 hu =>
    have h1 := hex4_length_le _ _ _ hu
    split_ifs at h
    · have e : (parseLowSurrogate u rest1).2 = r :=
        congrArg Prod.snd (Option.some.inj h)
      have h2 := parseLowSurrogate_length_le u rest1
      rw [e] at h2
      omega
    · rw [← some_pair_snd h]
      exact h1
    · rw [← some_pair_snd h]
      exact h1

theorem parseEscape_length_lt (cs : List Char) (c : Char) (r : List Char)
    (h : parseEscape cs = some (c, r)) : r.length < cs.length := by
  cases cs with
  | nil => exact absurd h (by rw [parseEscape]; exact Option.noConfusion)
  | cons d rest =>
    rw [parseEscape] at h
    simp only [List.length_cons]
    split_ifs at h
    all_goals first
      | (have e := some_pair_snd h
         rw [← e]
         omega)
      | skip
    have h1 := parseUnicodeEscape_length_le _ _ _ h
    omega

theorem parseStr_length_lt (n : Nat) : ∀ (cs s r : List Char),
    parseStr n cs = some (s, r) → r.length < cs.length := by
  induction n with
  | zero =>
    intro cs s r h
    simp [parseStr] at h
  | succ n ih =>
    intro cs s r h
    cases cs with
    | nil => simp [parseStr] at h
    | cons c rest =>
      rw [parseStr] at h
      simp only [List.length_cons]
      split_ifs at h
      · simp only [Option.some.injEq, Prod.mk.injEq] at h
        rw [← h.2]
        omega
      · split at h
        · next d rest1 he =>
          have h1 := parseEscape_length_lt _ _ _ he
          split at h
          · next s2 rest2 hs =>
            have h2 := ih _ _ _ hs
            simp only [Option.some.injEq, Prod.mk.injEq] at h
            rw [← h.2]
            omega
          · simp at h
        · simp at h
      · split at h
        · next s2 rest1 hs =>
          have h2 := ih _ _ _ hs
          simp only [Option.some.injEq, Prod.mk.injEq] at h
          rw [← h.2]
          omega
        · simp at h

theorem takeDigits_snd_le (cs ds r : List Char) (h : takeDigits cs = (ds, r)) :
    r.length ≤ cs.length := by
  have h1 := takeDigits_length_le cs
  rw [h] at h1
  exact h1

theorem parseIntPart_length_le (cs i r : List Char) (h : parseIntPart cs = some (i, r)) :
    r.length ≤ cs.length := by
  unfold parseIntPart at h
  split at h
  · exact absurd h Option.noConfusion
  · next c rest =>
    simp only [List.length_cons]
    split_ifs at h
    · rw [← some_pair_snd h]
      omega
    · rw [← some_pair_snd h]
      have := takeDigits_length_le rest
      omega

theorem parseFrac_length_le (cs f r : List Char) (h : parseFrac cs = some (f, r)) :
    r.length ≤ cs.length := by
  unfold parseFrac at h
  split at h
  · next rest =>
    split at h
    · exact absurd h Option.noConfusion
    · next ds rest1 _ ht =>
      have h1 := takeDigits_snd_le _ _ _ ht
      rw [← some_pair_snd h]
      simp only [List.length_cons]
      omega
  · rw [← some_pair_snd h]

theorem parseExpDigits_length_le (mark cs e r : List Char)
    (h : parseExpDigits mark cs = some (e, r)) : r.length ≤ cs.length := by
  unfold parseExpDigits at h
  split at h
  · exact absurd h Option.noConfusion
  · next ds rest _ ht =>
    have h1 := takeDigits_snd_le _ _ _ ht
    rw [← some_pair_snd h]
    exact h1

theorem parseExp_length_le (cs e r : List Char) (h : parseExp cs = some (e, r)) :
    r.length ≤ cs.length := by
  unfold parseExp at h
  split at h
  · rw [← some_pair_snd h]
  · next c rest =>
    simp only [List.length_cons]
    split_ifs at h
    · split at h
      · have := parseExpDigits_length_le _ _ _ _ h
        simp only [List.length_cons]
        omega
      · have := parseExpDigits_length_le _ _ _ _ h
        simp only [List.length_cons]
        omega
      · have := parseExpDigits_length_le _ _ _ _ h
        omega
    · rw [← some_pair_snd h]
      simp

theorem parseNumber_length_le (cs lit r : List Char) (h : parseNumber cs = some (lit, r)) :
    r.length ≤ cs.length := by
  unfold parseNumber at h
  have hs : (match cs with
      | '-' :: r => (['-'], r)
      | r => ([], r)).2.length ≤ cs.length := by
    split
    · simp
    · simp
  generalize (match cs with
      | '-' :: r => (['-'], r)
      | r => ([], r)) = signed at h hs
  simp only at h
  split at h
  · exact absurd h Option.noConfusion
  · next i r1 hi =>
    have h1 := parseIntPart_length_le _ _ _ hi
    split at h
    · exact absurd h Option.noConfusion
    · next f r2 hf =>
      have h2 := parseFrac_length_le _ _ _ hf
      split at h
      · exact absurd h Option.noConfusion
      · next e r3 he =>
        have h3 := parseExp_length_le _ _ _ he
        rw [← some_pair_snd h]
        omega

theorem skipWs_cons_length (cs rest : List Char) (c : Char) (h : skipWs cs = c :: rest) :
    rest.length < cs.length := by
  have h1 := skipWs_length_le cs
  rw [h] at h1
  simp only [List.length_cons] at h1
  omega

/-- What the parser leaves over is never longer than its input. -/
theorem parse_length_le (n : Nat) :
    (∀ cs v r, parseValue n cs = some (v, r) → r.length ≤ cs.length) ∧
    (∀ cs acc v r, parseMembers n cs acc = some (v, r) → r.length ≤ cs.length) ∧
    (∀ cs acc v r, parseElements n cs acc = some (v, r) → r.length ≤ cs.length) := by
  induction n with
  | zero =>
    refine ⟨fun cs v r h => ?_, fun cs acc v r h => ?_, fun cs acc v r h => ?_⟩
    · simp [parseValue] at h
    · simp [parseMembers] at h
    · simp [parseElements] at h
  | succ n ih =>
    obtain ⟨ihV, ihM, ihE⟩ := ih
    refine ⟨fun cs v r h => ?_, fun cs acc v r h => ?_, fun cs acc v r h => ?_⟩
    · rw [parseValue] at h
      split at h
      · exact absurd h Option.noConfusion
      · next c rest hsk =>
        have h0 := skipWs_cons_length _ _ _ hsk
        split_ifs at h
        · split at h
          · next rest1 hsk2 =>
            have h1 := skipWs_cons_length _ _ _ hsk2
            rw [← some_pair_snd h]
            omega
          · have h1 := ihM _ _ _ _ h
            omega
        · split at h
          · next rest1 hsk2 =>
            have h1 := skipWs_cons_length _ _ _ hsk2
            rw [← some_pair_snd h]
            omega
          · have h1 := ihE _ _ _ _ h
            omega
        · split at h
          · next s rest1 hs =>
            have h1 := parseStr_length_lt _ _ _ _ hs
            rw [← some_pair_snd h]
            omega
          · exact absurd h Option.noConfusion
        · split at h
          · rw [← some_pair_snd h]
            simp only [List.length_cons] at h0
            omega
          · exact absurd h Option.noConfusion
        · split at h
          · rw [← some_pair_snd h]
            simp only [List.length_cons] at h0
            omega
          · exact absurd h Option.noConfusion
        · split at h
          · rw [← some_pair_snd h]
            simp only [List.length_cons] at h0
            omega
          · exact absurd h Option.noConfusion
        · split at h
          · next lit rest1 hn =>
            have h1 := parseNumber_length_le _ _ _ hn
            rw [← some_pair_snd h]
            simp only [List.length_cons] at h1
            omega
          · exact absurd h Option.noConfusion
    · rw [parseMembers] at h
      split at h
      · next r0 hsk =>
        have h0 := skipWs_cons_length _ _ _ hsk
        split at h
        · exact absurd h Option.noConfusion
        · next k r1 hs =>
          have h1 := parseStr_length_lt _ _ _ _ hs
          split at h
          · next r2 hsk2 =>
            have h2 := skipWs_cons_length _ _ _ hsk2
            split at h
            · exact absurd h Option.noConfusion
            · next v2 r3 hv =>
              have h3 := ihV _ _ _ hv
              split at h
              · next r4 hsk3 =>
                have h4 := skipWs_cons_length _ _ _ hsk3
                have h5 := ihM _ _ _ _ h
                omega
              · next r4 hsk3 =>
                have h4 := skipWs_cons_length _ _ _ hsk3
                rw [← some_pair_snd h]
                omega
              · exact absurd h Option.noConfusion
          · exact absurd h Option.noConfusion
      · exact absurd h Option.noConfusion
    · rw [parseElements] at h
      split at h
      · exact absurd h Option.noConfusion
      · next v2 r1 hv =>
        have h1 := ihV _ _ _ hv
        split at h
        · next r2 hsk =>
          have h2 := skipWs_cons_length _ _ _ hsk
          have h3 := ihE _ _ _ _ h
          omega
        · next r2 hsk =>
          have h2 := skipWs_cons_length _ _ _ hsk
          rw [← some_pair_snd h]
          omega
        · exact absurd h Option.noConfusion


/-- Above a threshold that grows with the input, the fuel does not matter. -/
theorem parse_fuel (n : Nat) :
    (∀ m cs, 2 * cs.length + 1 ≤ n → 2 * cs.length + 1 ≤ m →
      parseValue n cs = parseValue m cs) ∧
    (∀ m cs acc, 2 * cs.length + 2 ≤ n → 2 * cs.length + 2 ≤ m →
      parseMembers n cs acc = parseMembers m cs acc) ∧
    (∀ m cs acc, 2 * cs.length + 2 ≤ n → 2 * cs.length + 2 ≤ m →
      parseElements n cs acc = parseElements m cs acc) := by
  induction n with
  | zero =>
    refine ⟨fun m cs h => ?_, fun m cs acc h => ?_, fun m cs acc h => ?_⟩ <;> omega
  | succ n ih =>
    obtain ⟨ihV, ihM, ihE⟩ := ih
    refine ⟨fun m cs hn hm => ?_, fun m cs acc hn hm => ?_, fun m cs acc hn hm => ?_⟩
    · obtain ⟨j, rfl⟩ : ∃ j, m = j + 1 := ⟨m - 1, by omega⟩
      rw [parseValue, parseValue]
      split
      · rfl
      · next c rest hsk =>
        have h0 := skipWs_cons_length _ _ _ hsk
        rw [ihM j rest [] (by omega) (by omega), ihE j rest [] (by omega) (by omega)]
    · obtain ⟨j, rfl⟩ : ∃ j, m = j + 1 := ⟨m - 1, by omega⟩
      rw [parseMembers, parseMembers]
      split
      · next r0 hsk =>
        have h0 := skipWs_cons_length _ _ _ hsk
        split
        · rfl
        · next k r1 hs =>
          have h1 := parseStr_length_lt _ _ _ _ hs
          split
          · next r2 hsk2 =>
            have h2 := skipWs_cons_length _ _ _ hsk2
            rw [ihV j r2 (by omega) (by omega)]
            split
            · rfl
            · next v2 r3 hv =>
              have h3 := (parse_length_le j).1 _ _ _ hv
              split
              · next r4 hsk3 =>
                have h4 := skipWs_cons_length _ _ _ hsk3
                exact ihM j r4 _ (by omega) (by omega)
              · rfl
              · rfl
          · rfl
      · rfl
    · obtain ⟨j, rfl⟩ : ∃ j, m = j + 1 := ⟨m - 1, by omega⟩
      rw [parseElements, parseElements, ihV j cs (by omega) (by omega)]
      split
      · rfl
      · next v2 r1 hv =>
        have h1 := (parse_length_le j).1 _ _ _ hv
        split
        · next r2 hsk =>
          have h2 := skipWs_cons_length _ _ _ hsk
          exact ihE j r2 _ (by omega) (by omega)
        · rfl
        · rfl

/-- More fuel than `JSON.parse` gives itself never changes its outcome: a
SyntaxError is never a lack of fuel. -/
theorem parse_fuel_enough (text : String) (n : Nat) (h : 2 * text.toList.length + 2 ≤ n) :
    parseValue n text.toList = parseValue (2 * text.toList.length + 2) text.toList :=
  (parse_fuel n).1 _ _ (by omega) (by omega)


/-- For string literals fuel equal to the length of the input is enough. -/
theorem parseStr_fuel (n : Nat) : ∀ (m : Nat) (cs : List Char),
    cs.length ≤ n → cs.length ≤ m → parseStr n cs = parseStr m cs := by
  induction n with
  | zero =>
    intro m cs hn _
    have e : cs = [] := List.length_eq_zero.1 (by omega)
    subst e
    cases m <;> rfl
  | succ n ih =>
    intro m cs hn hm
    cases cs with
    | nil => cases m <;> rfl
    | cons c rest =>
      simp only [List.length_cons] at hn hm
      obtain ⟨j, rfl⟩ : ∃ j, m = j + 1 := ⟨m - 1, by omega⟩
      rw [parseStr, parseStr]
      split_ifs
      · rfl
      · split
        · next d rest1 he =>
          have h1 := parseEscape_length_lt _ _ _ he
          rw [ih j rest1 (by omega) (by omega)]
        · rfl
      · rfl
      · rw [ih j rest (by omega) (by omega)]

end JSON

/-! ## Facts about the store -/

theorem save_data (w : World) : (save w).data = w.data := rfl

theorem save_storage (w : World) :
    (save w).storage = setItem w.storage KEY (JSON.stringify (.obj w.data)) := rfl

theorem importProgress_ok (w : World) (contents : String) (imported : JVal)
    (h : JSON.parse contents = .ok imported) :
    importProgress w contents =
      { showToast (save { w with data := spread w.data imported }) "📤 Progress imported!" "success"
        with reloads := w.reloads + 1 } := by
  unfold importProgress
  rw [h]
  rfl

theorem importProgress_error (w : World) (contents : String) (e : JSError)
    (h : JSON.parse contents = .error e) :
    importProgress w contents = showToast w "❌ Invalid file format" "error" := by
  unfold importProgress
  rw [h]

/-! ## The claims -/

/-- C1: when the file contents parse to an object (in particular to a mapping
from strings to booleans), `importProgress` leaves in `data` exactly the
existing map overridden by the imported one: a key of the imported object has
the imported value, any other key keeps the value it had, and a key of neither
is absent. The merged map is saved under `KEY` and the page is reloaded. -/
theorem importProgress_merges (w : World) (contents : String) (imported : Obj)
    (hw : w.data.WF) (hparse : JSON.parse contents = .ok (.obj imported)) :
    (∀ k, getOwn (importProgress w contents).data k =
        match getOwn imported k with
        | some v => some v
        | none => getOwn w.data k) ∧
    getItem (importProgress w contents).storage KEY =
      some (JSON.stringify (.obj (importProgress w contents).data)) ∧
    (importProgress w contents).reloads = w.reloads + 1 := by
  have hi : Obj.WF imported := JSON.parse_obj_wf contents imported hparse
  rw [importProgress_ok w contents _ hparse]
  refine ⟨fun k => ?_, ?_, rfl⟩
  · exact getOwn_spread_obj w.data imported hw hi k
  · exact getItem_setItem_same _ _ _

/-- C1, at the example of the specification: importing `{"a":true}` over
`{a:false, b:true}` yields `{a:true, b:true}`. -/
theorem importProgress_merges_witness :
    (importProgress (freshWorld [("a", .bool false), ("b", .bool true)]) "\x7b\"a\":true\x7d").data
        = [("a", .bool true), ("b", .bool true)] ∧
    ((∀ k, getOwn (importProgress (freshWorld [("a", .bool false), ("b", .bool true)])
          "\x7b\"a\":true\x7d").data k =
        match getOwn [("a", JVal.bool true)] k with
        | some v => some v
        | none => getOwn (freshWorld [("a", .bool false), ("b", .bool true)]).data k) ∧
      getItem (importProgress (freshWorld [("a", .bool false), ("b", .bool true)])
          "\x7b\"a\":true\x7d").storage KEY =
        some (JSON.stringify (.obj (importProgress (freshWorld [("a", .bool false), ("b", .bool true)])
          "\x7b\"a\":true\x7d").data)) ∧
      (importProgress (freshWorld [("a", .bool false), ("b", .bool true)])
          "\x7b\"a\":true\x7d").reloads = (freshWorld [("a", .bool false), ("b", .bool true)]).reloads + 1) :=
  ⟨rfl, importProgress_merges (freshWorld [("a", .bool false), ("b", .bool true)])
    "\x7b\"a\":true\x7d" [("a", .bool true)] (by simp [Obj.WF, freshWorld]) rfl⟩

/-- C2: when the file contents do not parse as JSON, `importProgress` shows the
error toast and changes nothing else: `data`, the storage (so the saved
progress blob), the page and the reload count are as before. -/
theorem importProgress_parse_failure (w : World) (contents : String) (e : JSError)
    (hparse : JSON.parse contents = .error e) :
    (importProgress w contents).toasts = ("❌ Invalid file format", "error") :: w.toasts ∧
    (importProgress w contents).data = w.data ∧
    (importProgress w contents).storage = w.storage ∧
    getItem (importProgress w contents).storage KEY = getItem w.storage KEY ∧
    (importProgress w contents).page = w.page ∧
    (importProgress w contents).reloads = w.reloads := by
  rw [importProgress_error w contents e hparse]
  exact ⟨rfl, rfl, rfl, rfl, rfl, rfl⟩

/-- C2, at a truncated file over a saved map. -/
theorem importProgress_parse_failure_witness :
    JSON.parse "\x7b\"a\":tr" = .error .syntaxError ∧
    (importProgress (savedWorld [("a", .bool false)]) "\x7b\"a\":tr").toasts =
      [("❌ Invalid file format", "error")] ∧
    (importProgress (savedWorld [("a", .bool false)]) "\x7b\"a\":tr").data = [("a", .bool false)] ∧
    getItem (importProgress (savedWorld [("a", .bool false)]) "\x7b\"a\":tr").storage KEY =
      some "\x7b\"a\":false\x7d" :=
  have h := importProgress_parse_failure (savedWorld [("a", .bool false)]) "\x7b\"a\":tr"
    .syntaxError rfl
  ⟨rfl, h.1, h.2.1, h.2.2.2.1.trans rfl⟩

/-! ## Enumeration order -/

theorem insertIndex_of_smaller (o : Obj) (i : Nat) (k : String) (v : JVal)
    (h : ∀ p ∈ o, ∃ j, arrayIndex? p.1 = some j ∧ j < i) :
    insertIndex o i k v = o ++ [(k, v)] := by
  induction o with
  | nil => rfl
  | cons p rest ih =>
    obtain ⟨a, w⟩ := p
    obtain ⟨j, hj, hlt⟩ := h (a, w) (by simp)
    have hrest : ∀ p ∈ rest, ∃ j, arrayIndex? p.1 = some j ∧ j < i :=
      fun p hp => h p (by simp [hp])
    simp only at hj
    simp [insertIndex, hj, hlt, ih hrest]

theorem setOwn_of_ordered (o : Obj) (k : String) (v : JVal) (h : Obj.Ordered (o ++ [(k, v)])) :
    setOwn o k v = o ++ [(k, v)] := by
  unfold Obj.Ordered at h
  rw [List.pairwise_append] at h
  obtain ⟨_, _, hcross⟩ := h
  have hnone : getOwn o k = none := by
    rw [getOwn_eq_none_iff]
    intro hk
    obtain ⟨p, hp, hpk⟩ := List.mem_map.1 hk
    exact (hcross p hp (k, v) (by simp)).1 hpk
  unfold setOwn
  rw [hnone]
  simp only
  cases hi : arrayIndex? k with
  | none => rfl
  | some i =>
    simp only
    apply insertIndex_of_smaller
    intro p hp
    exact (hcross p hp (k, v) (by simp)).2 i hi

/-- Copying properties that continue the enumeration order appends them. -/
theorem copyProps_of_ordered (src acc : Obj) (h : Obj.Ordered (acc ++ src)) :
    copyProps acc src = acc ++ src := by
  induction src generalizing acc with
  | nil => simp [copyProps]
  | cons p rest ih =>
    obtain ⟨k, v⟩ := p
    have hsplit : acc ++ (k, v) :: rest = (acc ++ [(k, v)]) ++ rest := by simp
    have hpre : Obj.Ordered (acc ++ [(k, v)]) := by
      unfold Obj.Ordered at h ⊢
      rw [hsplit] at h
      exact (List.pairwise_append.1 h).1
    have hstep : copyProps acc ((k, v) :: rest) = copyProps (setOwn acc k v) rest := rfl
    rw [hstep, setOwn_of_ordered acc k v hpre, ih (acc ++ [(k, v)]) (hsplit ▸ h), hsplit]

theorem Obj.Ordered.wf {o : Obj} (h : o.Ordered) : o.WF := by
  unfold Obj.Ordered at h
  unfold Obj.WF
  unfold List.Nodup
  rw [List.pairwise_map]
  exact h.imp (fun hr => hr.1)

theorem updateOwn_same (o : Obj) (k : String) (v : JVal) (h : getOwn o k = some v) :
    updateOwn o k v = o := by
  induction o with
  | nil => rfl
  | cons p rest ih =>
    obtain ⟨a, w⟩ := p
    by_cases hak : a = k
    · subst hak
      have e : w = v := by simpa [getOwn] using h
      simp [updateOwn, e]
    · have hr : getOwn rest k = some v := by simpa [getOwn, hak] using h
      simp [updateOwn, hak, ih hr]

theorem getOwn_of_mem (o : Obj) (hwf : o.WF) (p : String × JVal) (hp : p ∈ o) :
    getOwn o p.1 = some p.2 := by
  induction o with
  | nil => simp at hp
  | cons q rest ih =>
    obtain ⟨a, w⟩ := q
    have hnd := List.nodup_cons.1 (show (a :: rest.map Prod.fst).Nodup from hwf)
    rcases List.mem_cons.1 hp with e | e
    · subst e
      simp [getOwn]
    · have hne : ¬ a = p.1 := by
        intro e2
        exact hnd.1 (e2 ▸ List.mem_map_of_mem Prod.fst e)
      simp only [getOwn, hne, if_false]
      exact ih hnd.2 e

/-- Copying properties the target already has, with the same values, changes nothing. -/
theorem copyProps_of_present (src acc : Obj) (h : ∀ p ∈ src, getOwn acc p.1 = some p.2) :
    copyProps acc src = acc := by
  induction src with
  | nil => rfl
  | cons p rest ih =>
    have hstep : copyProps acc (p :: rest) = copyProps (setOwn acc p.1 p.2) rest := rfl
    have hp := h p (by simp)
    have hs : setOwn acc p.1 p.2 = acc := by
      unfold setOwn
      rw [hp]
      exact updateOwn_same acc p.1 p.2 hp
    rw [hstep, hs]
    exact ih (fun q hq => h q (by simp [hq]))

/-! ## Round trip -/

/-- C3: for a progress map `m` of booleans, importing the file that
`exportProgress` writes for `m` (the text `JSON.stringify(m, null, 2)`) into a
store whose map is `m`, or into a store whose map is empty, leaves a map with
exactly the members of `m`; when `m` lists its keys in enumeration order, as
every object does, the resulting map is `m` itself. -/
theorem export_import_roundtrip (w : World) (hwf : w.data.WF) (hbool : allBool w.data) :
    (exportProgress w).downloads =
      ("math-hub-progress.json", JSON.stringifyIndented (.obj w.data)) :: w.downloads ∧
    (∀ k, getOwn (importProgress w (JSON.stringifyIndented (.obj w.data))).data k
        = getOwn w.data k) ∧
    (∀ w2 : World, w2.data = [] →
      ∀ k, getOwn (importProgress w2 (JSON.stringifyIndented (.obj w.data))).data k
        = getOwn w.data k) ∧
    (w.data.Ordered →
      (importProgress w (JSON.stringifyIndented (.obj w.data))).data = w.data ∧
      ∀ w2 : World, w2.data = [] →
        (importProgress w2 (JSON.stringifyIndented (.obj w.data))).data = w.data) := by
  have hparse := JSON.parse_stringifyIndented w.data hbool
  have hcw : Obj.WF (copyProps [] w.data) := wf_copyProps wf_nil w.data
  have hlook : ∀ (a : Obj), a.WF → (∀ k, getOwn a k = getOwn w.data k ∨ getOwn a k = none) →
      ∀ k, getOwn (spread a (.obj (copyProps [] w.data))) k = getOwn w.data k := by
    intro a ha hsub k
    rw [getOwn_spread_obj a _ ha hcw k, getOwn_copyProps_nil w.data hwf k]
    cases hk : getOwn w.data k with
    | some v => rfl
    | none =>
      rcases hsub k with e | e
      · simpa [hk] using e
      · simpa using e
  refine ⟨rfl, fun k => ?_, fun w2 h2 k => ?_, fun hord => ⟨?_, fun w2 h2 => ?_⟩⟩
  · rw [importProgress_ok w _ _ hparse]
    exact hlook w.data hwf (fun k => Or.inl rfl) k
  · rw [importProgress_ok w2 _ _ hparse]
    show getOwn (spread w2.data _) k = _
    rw [h2]
    exact hlook [] wf_nil (fun k => Or.inr rfl) k
  · rw [importProgress_ok w _ _ hparse]
    have h1 : copyProps [] w.data = w.data := by
      simpa using copyProps_of_ordered w.data [] (by simpa using hord)
    show spread w.data (.obj (copyProps [] w.data)) = w.data
    unfold spread
    simp only [ownProps, h1]
    exact copyProps_of_present w.data w.data (fun p hp => getOwn_of_mem w.data hwf p hp)
  · rw [importProgress_ok w2 _ _ hparse]
    have h1 : copyProps [] w.data = w.data := by
      simpa using copyProps_of_ordered w.data [] (by simpa using hord)
    show spread w2.data (.obj (copyProps [] w.data)) = w.data
    rw [h2]
    unfold spread
    simp only [ownProps, h1]
    exact h1

/-- C3, at a map with an escaped key and an array index key. -/
theorem export_import_roundtrip_witness :
    (importProgress (freshWorld [("7", .bool true), ("21v1", .bool true), ("a\"b", .bool false)])
      (JSON.stringifyIndented (.obj [("7", .bool true), ("21v1", .bool true), ("a\"b", .bool false)]))).data
      = [("7", .bool true), ("21v1", .bool true), ("a\"b", .bool false)] ∧
    (importProgress (freshWorld [])
      (JSON.stringifyIndented (.obj [("7", .bool true), ("21v1", .bool true), ("a\"b", .bool false)]))).data
      = [("7", .bool true), ("21v1", .bool true), ("a\"b", .bool false)] :=
  have hord : Obj.Ordered [("7", .bool true), ("21v1", .bool true), ("a\"b", JVal.bool false)] := by
    have h7 : arrayIndex? "7" = some 7 := rfl
    have h21 : arrayIndex? "21v1" = none := rfl
    have hab : arrayIndex? "a\"b" = none := rfl
    simp [Obj.Ordered, h7, h21, hab]
  have h := export_import_roundtrip
    (freshWorld [("7", .bool true), ("21v1", .bool true), ("a\"b", .bool false)])
    hord.wf (by simp [allBool, freshWorld])
  ⟨(h.2.2.2 hord).1, (h.2.2.2 hord).2 (freshWorld []) rfl⟩

/-! ## Toggle and reset -/

theorem getOwn_assignBool (o : Obj) (k k2 : String) (b : Bool) :
    getOwn (assignBool o k b) k2 =
      if k = k2 then
        (if (getOwn o k).isSome ∨ k ≠ "__proto__" then some (.bool b) else none)
      else getOwn o k2 := by
  unfold assignBool
  cases hk : getOwn o k with
  | some u =>
    simp only [getOwn_updateOwn, hk]
    simp
  | none =>
    by_cases hp : k = "__proto__"
    · subst hp
      by_cases h2 : "__proto__" = k2
      · subst h2
        simp [hk]
      · simp [h2]
    · simp only [hp, if_false, getOwn_setOwn]
      simp [hp]

theorem toggle_data (w : World) (id : String) :
    (toggle w id).data = assignBool w.data id (!(getProp w.data id).truthy) := rfl

theorem proto_mem : "__proto__" ∈ objectPrototypeKeys := by decide

/-- C4 as amended: two calls of `toggle(id)` in a row restore the truthiness of
`data[id]`, leave every other key as it was, give back the very value when it
was a boolean, and leave `false` for an id that was absent and is not a
property name of `Object.prototype`. -/
theorem toggle_twice (w : World) (id : String) :
    (getProp (toggle (toggle w id) id).data id).truthy = (getProp w.data id).truthy ∧
    (∀ k, k ≠ id → getOwn (toggle (toggle w id) id).data k = getOwn w.data k) ∧
    (∀ b, getOwn w.data id = some (.bool b) →
      getOwn (toggle (toggle w id) id).data id = some (.bool b)) ∧
    (getOwn w.data id = none → id ∉ objectPrototypeKeys →
      getOwn (toggle (toggle w id) id).data id = some (.bool false)) := by
  have hne : ∀ k, k ≠ id → getOwn (toggle (toggle w id) id).data k = getOwn w.data k := by
    intro k hk
    have h : ¬ id = k := fun e => hk e.symm
    rw [toggle_data, getOwn_assignBool, if_neg h, toggle_data, getOwn_assignBool, if_neg h]
  have hown : ∀ v, getOwn w.data id = some v →
      getOwn (toggle (toggle w id) id).data id = some (.bool (truthy v)) := by
    intro v hv
    have h1 : getOwn (toggle w id).data id = some (.bool (!truthy v)) := by
      rw [toggle_data, getOwn_assignBool]
      simp [hv, getProp, PropVal.truthy]
    rw [toggle_data, getOwn_assignBool]
    simp [h1, getProp, PropVal.truthy, truthy]
  refine ⟨?_, hne, ?_, ?_⟩
  · cases hv : getOwn w.data id with
    | some v =>
      simp only [getProp, hown v hv, hv, PropVal.truthy, truthy]
    | none =>
      by_cases hp : id = "__proto__"
      · have h1 : (toggle w id).data = w.data := by
          rw [toggle_data]
          unfold assignBool
          rw [hv]
          simp [hp]
        have h2 : (toggle (toggle w id) id).data = w.data := by
          rw [toggle_data, h1]
          unfold assignBool
          rw [hv]
          simp [hp]
        rw [h2]
      · have h1 : getOwn (toggle w id).data id = some (.bool (!(getProp w.data id).truthy)) := by
          rw [toggle_data, getOwn_assignBool]
          simp [hp]
        have h2 : getOwn (toggle (toggle w id) id).data id = some (.bool (getProp w.data id).truthy) := by
          rw [toggle_data, getOwn_assignBool]
          simp [h1, getProp, PropVal.truthy, truthy]
        conv_lhs => rw [getProp, h2]
        simp [PropVal.truthy, truthy]
  · intro b hb
    simpa [truthy] using hown (.bool b) hb
  · intro hv hnot
    have hp : id ≠ "__proto__" := fun e => hnot (e ▸ proto_mem)
    have h0 : (getProp w.data id).truthy = false := by
      simp [getProp, hv, hnot, PropVal.truthy]
    have h1 : getOwn (toggle w id).data id = some (.bool true) := by
      rw [toggle_data, getOwn_assignBool, h0]
      simp [hp]
    rw [toggle_data, getOwn_assignBool]
    simp [h1, getProp, PropVal.truthy, truthy]

/-- C4 as amended, at the key `21v1` of a map that holds it and at a key it lacks. -/
theorem toggle_twice_witness :
    getOwn (toggle (toggle (freshWorld [("21v1", .bool true)]) "21v1") "21v1").data "21v1"
      = some (.bool true) ∧
    getOwn (toggle (toggle (freshWorld [("21v1", .bool true)]) "21p1") "21p1").data "21p1"
      = some (.bool false) :=
  ⟨(toggle_twice (freshWorld [("21v1", .bool true)]) "21v1").2.2.1 true rfl,
   (toggle_twice (freshWorld [("21v1", .bool true)]) "21p1").2.2.2 rfl (by decide)⟩

/-- C4 as stated fails: `toString` is absent from the empty map, so its
done-value counts as false, yet after two calls of `toggle` it is true. -/
theorem toggle_twice_inherited_name :
    doneValue (freshWorld []).data "toString" = false ∧
    doneValue (toggle (toggle (freshWorld []) "toString") "toString").data "toString" = true :=
  ⟨rfl, rfl⟩

theorem callHost_data (w : World) (name : String) : (callHost w name).data = w.data := by
  unfold callHost
  split_ifs <;> rfl

theorem callHost_storage (w : World) (name : String) : (callHost w name).storage = w.storage := by
  unfold callHost
  split_ifs <;> rfl

theorem resetProgress_data (w : World) : (resetProgress w true).data = [] := by
  simp [resetProgress, callHost_data, showToast, save_data]

theorem resetProgress_storage (w : World) :
    (resetProgress w true).storage = setItem w.storage KEY (JSON.stringify (.obj [])) := by
  simp [resetProgress, callHost_storage, showToast, save_storage]

/-- C9 as amended: for an id that is not a property name of `Object.prototype`,
`toggle(id)` on the empty map makes the map `{id: true}`, stores its
serialization under `KEY` and announces completion; a confirmed
`resetProgress` then makes the map `{}` and stores `{}`, a declined one
changes nothing. -/
theorem toggle_then_reset (w : World) (id : String) (hempty : w.data = [])
    (hid : id ∉ objectPrototypeKeys) :
    (toggle w id).data = [(id, .bool true)] ∧
    getItem (toggle w id).storage KEY = some (JSON.stringify (.obj [(id, .bool true)])) ∧
    (toggle w id).toasts = ("✅ Marked as complete!", "success") :: w.toasts ∧
    (resetProgress (toggle w id) true).data = [] ∧
    getItem (resetProgress (toggle w id) true).storage KEY = some "\x7b\x7d" ∧
    resetProgress (toggle w id) false = toggle w id := by
  have hp : id ≠ "__proto__" := fun e => hid (e ▸ proto_mem)
  have hdata : (toggle w id).data = [(id, .bool true)] := by
    rw [toggle_data, hempty]
    have h0 : (getProp [] id).truthy = false := by
      simp [getProp, getOwn, hid, PropVal.truthy]
    rw [h0]
    unfold assignBool setOwn
    simp only [getOwn, hp, if_false]
    cases arrayIndex? id <;> rfl
  refine ⟨hdata, ?_, ?_, resetProgress_data _, ?_, rfl⟩
  · have h : (toggle w id).storage =
        setItem w.storage KEY (JSON.stringify (.obj (toggle w id).data)) := rfl
    rw [h, hdata]
    exact getItem_setItem_same _ _ _
  · have h : (toggle w id).toasts =
        ((if (getProp (toggle w id).data id).truthy then "✅ Marked as complete!"
          else "↩️ Marked as incomplete"), "success") :: w.toasts := rfl
    rw [h, hdata]
    simp [getProp, getOwn, PropVal.truthy, truthy]
  · rw [resetProgress_storage]
    exact getItem_setItem_same _ _ _

/-- C9 as amended, at the id `21v1` of the specification. -/
theorem toggle_then_reset_witness :
    (toggle (freshWorld []) "21v1").data = [("21v1", .bool true)] ∧
    getItem (toggle (freshWorld []) "21v1").storage KEY = some "\x7b\"21v1\":true\x7d" ∧
    (resetProgress (toggle (freshWorld []) "21v1") true).data = [] ∧
    getItem (resetProgress (toggle (freshWorld []) "21v1") true).storage KEY = some "\x7b\x7d" :=
  have h := toggle_then_reset (freshWorld []) "21v1" rfl (by decide)
  ⟨h.1, h.2.1.trans rfl, h.2.2.2.1, h.2.2.2.2.1⟩

/-- C9 as stated fails: on the empty map `data["toString"]` reads the inherited
function, which is truthy, so `toggle("toString")` stores `false`; and
`toggle("__proto__")` leaves the map empty. -/
theorem toggle_inherited_name :
    (toggle (freshWorld []) "toString").data = [("toString", .bool false)] ∧
    (toggle (freshWorld []) "toString").data ≠ [("toString", .bool true)] ∧
    getItem (toggle (freshWorld []) "toString").storage KEY = some "\x7b\"toString\":false\x7d" ∧
    (toggle (freshWorld []) "__proto__").data = [] := by
  refine ⟨rfl, ?_, rfl, rfl⟩
  intro h
  have h2 : (toggle (freshWorld []) "toString").data = [("toString", .bool false)] := rfl
  rw [h2] at h
  simp at h

/-! ## The progress map stays well formed -/

theorem wf_updateOwn {o : Obj} (h : o.WF) (k : String) (v : JVal) : Obj.WF (updateOwn o k v) := by
  unfold Obj.WF
  rw [keys_updateOwn]
  exact h

theorem wf_assignBool {o : Obj} (h : o.WF) (k : String) (b : Bool) :
    Obj.WF (assignBool o k b) := by
  unfold assignBool
  split
  · exact wf_updateOwn h k _
  · split_ifs
    · exact h
    · exact wf_setOwn h k _

/-- The object that start-up reads from the storage has pairwise distinct keys. -/
theorem initData_wf (storage : List (String × String)) (ps : Obj)
    (h : initData storage = .ok (.obj ps)) : Obj.WF ps := by
  unfold initData at h
  split at h
  · next v hv =>
    split_ifs at h
    · have e : v = .obj ps := Except.ok.inj h
      rw [e] at hv
      exact JSON.parse_obj_wf _ _ hv
    · have e : JVal.obj [] = .obj ps := Except.ok.inj h
      cases e
      exact wf_nil
  · exact absurd h (by simp)

/-- Every operation on the progress map keeps its keys pairwise distinct. -/
theorem wf_preserved (w : World) (h : w.data.WF) :
    (∀ id, Obj.WF (toggle w id).data) ∧
    (∀ confirmed, Obj.WF (resetProgress w confirmed).data) ∧
    (∀ contents, Obj.WF (importProgress w contents).data) := by
  refine ⟨fun id => ?_, fun confirmed => ?_, fun contents => ?_⟩
  · rw [toggle_data]
    exact wf_assignBool h _ _
  · cases confirmed
    · exact h
    · rw [resetProgress_data]
      exact wf_nil
  · cases hp : JSON.parse contents with
    | ok imported =>
      rw [importProgress_ok w contents _ hp]
      exact wf_copyProps (wf_copyProps wf_nil _) _
    | error e =>
      rw [importProgress_error w contents e hp]
      exact h

/-! ## Booleans stay booleans -/

theorem allBool_updateOwn (o : Obj) (k : String) (b : Bool) (h : allBool o) :
    allBool (updateOwn o k (.bool b)) := by
  induction o with
  | nil => simpa [updateOwn] using h
  | cons p rest ih =>
    obtain ⟨a, w⟩ := p
    have hrest : allBool rest := fun q hq => h q (by simp [hq])
    unfold updateOwn
    split_ifs
    · intro q hq
      rcases List.mem_cons.1 hq with e | e
      · exact ⟨b, by rw [e]⟩
      · exact hrest q e
    · intro q hq
      rcases List.mem_cons.1 hq with e | e
      · exact h q (by simp [e])
      · exact ih hrest q e

theorem allBool_insertIndex (o : Obj) (i : Nat) (k : String) (b : Bool) (h : allBool o) :
    allBool (insertIndex o i k (.bool b)) := by
  induction o with
  | nil =>
    intro q hq
    have e : q = (k, .bool b) := by simpa [insertIndex] using hq
    exact ⟨b, by rw [e]⟩
  | cons p rest ih =>
    obtain ⟨a, w⟩ := p
    have hrest : allBool rest := fun q hq => h q (by simp [hq])
    have hnew : allBool ((k, .bool b) :: (a, w) :: rest) := by
      intro q hq
      rcases List.mem_cons.1 hq with e | e
      · exact ⟨b, by rw [e]⟩
      · exact h q e
    unfold insertIndex
    split
    · split_ifs
      · intro q hq
        rcases List.mem_cons.1 hq with e | e
        · exact h q (by simp [e])
        · exact ih hrest q e
      · exact hnew
    · exact hnew

theorem allBool_setOwn (o : Obj) (k : String) (b : Bool) (h : allBool o) :
    allBool (setOwn o k (.bool b)) := by
  unfold setOwn
  split
  · exact allBool_updateOwn o k b h
  · split
    · exact allBool_insertIndex o _ k b h
    · intro q hq
      rcases List.mem_append.1 hq with e | e
      · exact h q e
      · have e2 : q = (k, .bool b) := by simpa using e
        exact ⟨b, by rw [e2]⟩

theorem allBool_assignBool (o : Obj) (k : String) (b : Bool) (h : allBool o) :
    allBool (assignBool o k b) := by
  unfold assignBool
  split
  · exact allBool_updateOwn o k b h
  · split_ifs
    · exact h
    · exact allBool_setOwn o k b h

theorem allBool_copyProps (src t : Obj) (ht : allBool t) (hs : allBool src) :
    allBool (copyProps t src) := by
  unfold copyProps
  induction src generalizing t with
  | nil => simpa using ht
  | cons p rest ih =>
    obtain ⟨b, hb⟩ := hs p (by simp)
    have hrest : allBool rest := fun q hq => hs q (by simp [hq])
    simp only [List.foldl_cons]
    rw [hb]
    exact ih _ (allBool_setOwn t p.1 b ht) hrest

theorem allBool_nil : allBool [] := by
  intro q hq
  simp at hq

/-- C10 as amended: when every value of the progress map is a boolean, then
after `toggle(id)` for any id, after a confirmed `resetProgress`, and after an
`importProgress` of a file that parses to an object whose values are all
booleans, every value of the map is a boolean, and the blob stored under `KEY`
is the serialization of that map and parses to an object of booleans. -/
theorem allBool_preserved (w : World) (hbool : allBool w.data) :
    (∀ id, allBool (toggle w id).data ∧ storedAllBool (toggle w id)) ∧
    (allBool (resetProgress w true).data ∧ storedAllBool (resetProgress w true)) ∧
    (∀ contents imported, JSON.parse contents = .ok (.obj imported) → allBool imported →
      allBool (importProgress w contents).data ∧ storedAllBool (importProgress w contents)) := by
  have hstored : ∀ (w2 : World), allBool w2.data →
      getItem w2.storage KEY = some (JSON.stringify (.obj w2.data)) → storedAllBool w2 := by
    intro w2 h2 hs
    exact ⟨hs, _, JSON.parse_stringify w2.data h2,
      allBool_copyProps w2.data [] allBool_nil h2⟩
  refine ⟨fun id => ?_, ?_, fun contents imported hparse hi => ?_⟩
  · have h1 : allBool (toggle w id).data := by
      rw [toggle_data]
      exact allBool_assignBool _ _ _ hbool
    exact ⟨h1, hstored _ h1 (getItem_setItem_same _ _ _)⟩
  · have h1 : allBool (resetProgress w true).data := by
      rw [resetProgress_data]
      exact allBool_nil
    refine ⟨h1, hstored _ h1 ?_⟩
    rw [resetProgress_storage, resetProgress_data]
    exact getItem_setItem_same _ _ _
  · have h1 : allBool (importProgress w contents).data := by
      rw [importProgress_ok w contents _ hparse]
      show allBool (spread w.data (.obj imported))
      unfold spread
      exact allBool_copyProps _ _ (allBool_copyProps _ _ allBool_nil hbool) hi
    refine ⟨h1, hstored _ h1 ?_⟩
    rw [importProgress_ok w contents _ hparse]
    exact getItem_setItem_same _ _ _

/-- C10 as amended, at a map of two booleans. -/
theorem allBool_preserved_witness :
    allBool (toggle (freshWorld [("a", .bool false), ("b", .bool true)]) "a").data ∧
    allBool (resetProgress (freshWorld [("a", .bool false), ("b", .bool true)]) true).data ∧
    allBool (importProgress (freshWorld [("a", .bool false), ("b", .bool true)])
      "\x7b\"c\":true\x7d").data :=
  have h := allBool_preserved (freshWorld [("a", .bool false), ("b", .bool true)])
    (by simp [allBool, freshWorld])
  ⟨(h.1 "a").1, h.2.1.1, (h.2.2 "\x7b\"c\":true\x7d" [("c", .bool true)] rfl
    (by simp [allBool])).1⟩

/-- C10 as stated fails: a file that parses as JSON need not hold booleans;
importing `{"a":1}` leaves the number in the map and in the stored blob. -/
theorem importProgress_keeps_number :
    JSON.parse "\x7b\"a\":1\x7d" = .ok (.obj [("a", .num "1")]) ∧
    (importProgress (freshWorld [("a", .bool true)]) "\x7b\"a\":1\x7d").data = [("a", .num "1")] ∧
    getItem (importProgress (freshWorld [("a", .bool true)]) "\x7b\"a\":1\x7d").storage KEY
      = some "\x7b\"a\":1\x7d" ∧
    allBool (freshWorld [("a", .bool true)]).data ∧
    ¬ allBool (importProgress (freshWorld [("a", .bool true)]) "\x7b\"a\":1\x7d").data := by
  refine ⟨rfl, rfl, rfl, by simp [allBool, freshWorld], ?_⟩
  intro h
  have h2 : (importProgress (freshWorld [("a", .bool true)]) "\x7b\"a\":1\x7d").data
      = [("a", .num "1")] := rfl
  rw [h2] at h
  obtain ⟨b, hb⟩ := h ("a", .num "1") (by simp)
  simp at hb

/-! ## The viewer -/

/-- When `VIDEO_URLS[path]` is truthy: the table maps the path to a URL, or the
path is a property name of `Object.prototype`. -/
theorem truthy_VIDEO_URLS (path : String) :
    (getProp VIDEO_URLS path).truthy = true ↔
      (∃ url, getOwn VIDEO_URLS path = some (.str url)) ∨
      (getOwn VIDEO_URLS path = none ∧ path ∈ objectPrototypeKeys) := by
  unfold getProp VIDEO_URLS
  simp only [getOwn]
  split_ifs <;> simp [PropVal.truthy, truthy, getOwn, *]

/-- The two branches of `openVideo`: in drive mode with a truthy
`VIDEO_URLS[path]` the value read is handed to `window.open` and the page is
left as it is; otherwise `window.open` is not called, whether or not the call
raises, and on a page that has both viewer elements the viewer is opened on
the video template with the path pasted in. -/
theorem openVideo_branches (w : World) (path : String) :
    (w.videoMode = "drive" ∧ (getProp VIDEO_URLS path).truthy = true →
      openVideo w path = .ok { w with opened := getProp VIDEO_URLS path :: w.opened }) ∧
    (¬ (w.videoMode = "drive" ∧ (getProp VIDEO_URLS path).truthy = true) →
      (∀ w2, openVideo w path = .ok w2 → w2.opened = w.opened) ∧
      (∀ e w2, openVideo w path = .error (e, w2) → w2.opened = w.opened) ∧
      (∀ v c, w.page.viewer = some v → w.page.viewerContent = some c →
        ∃ w2, openVideo w path = .ok w2 ∧ w2.page.overlay = .openVideo path)) := by
  refine ⟨fun h => ?_, fun h => ⟨fun w2 h2 => ?_, fun e w2 h2 => ?_, fun v c hv hc => ?_⟩⟩
  · unfold openVideo
    simp only [h, and_self, if_true]
  · unfold openVideo at h2
    simp only [h, if_false] at h2
    cases hc : w.page.viewerContent with
    | none => simp [hc] at h2
    | some c =>
      cases hv : w.page.viewer with
      | none => simp [hc, hv] at h2
      | some v =>
        simp only [hc, hv, Except.ok.injEq] at h2
        rw [← h2]
  · unfold openVideo at h2
    simp only [h, if_false] at h2
    cases hc : w.page.viewerContent with
    | none =>
      simp only [hc, Except.error.injEq, Prod.mk.injEq] at h2
      rw [← h2.2]
    | some c =>
      cases hv : w.page.viewer with
      | none =>
        simp only [hc, hv, Except.error.injEq, Prod.mk.injEq] at h2
        rw [← h2.2]
      | some v => simp [hc, hv] at h2
  · unfold openVideo
    simp only [h, if_false, hc, hv]
    exact ⟨_, rfl, rfl⟩

/-- A path is pasted into the video template as it is: with a double quote in
it the value of `src` ends there, so the video shown is not the path. -/
theorem openVideo_quote_in_path :
    (∃ w2, openVideo (freshWorld []) "a\"b.mp4" = .ok w2 ∧
      w2.page.viewerContent = some (.video "a\"b.mp4" false)) ∧
    srcValueText "a\"b.mp4" = "a" ∧
    srcValueText "3.1/Fourier Transform.mp4" = "3.1/Fourier Transform.mp4" :=
  ⟨⟨_, rfl, rfl⟩, by decide, by decide⟩

/-- C5 fails on the code: `constructor` is not in the table, yet in drive mode
`VIDEO_URLS["constructor"]` reads the function inherited from
`Object.prototype`, which is truthy, so `openVideo` hands it to `window.open`
and leaves the overlay closed, where the claim has nothing external opened
and the overlay on the video. -/
theorem openVideo_inherited_name :
    getOwn VIDEO_URLS "constructor" = none ∧
    ∃ w2, openVideo { freshWorld [] with videoMode := "drive" } "constructor" = .ok w2 ∧
      w2.opened = [.inherited "constructor"] ∧ w2.page.overlay = .closed :=
  ⟨rfl, _, rfl, rfl, rfl⟩

/-- C8 fails on the code: `closeViewer` and the Escape key raise a TypeError on
a page without the element `viewer-content`, and `closeViewer` also on a page
that has it but lacks `viewer`; `refresh` and `updateVideoModeUI`, which check
each element, leave a page without their elements as it is. -/
theorem closeViewer_missing_element :
    (∃ w2, closeViewer { freshWorld [] with page := barePage } = .error (.typeError, w2)) ∧
    (∃ w2, onKeydown { freshWorld [] with page := barePage } "Escape" = .error (.typeError, w2)) ∧
    (∃ w2, closeViewer { freshWorld [] with page := { barePage with viewerContent := some .empty } }
      = .error (.typeError, w2)) ∧
    (refresh { freshWorld [] with page := barePage }).page = barePage ∧
    (updateVideoModeUI { freshWorld [] with page := barePage }).page = barePage :=
  ⟨⟨_, rfl⟩, ⟨_, rfl⟩, ⟨_, rfl⟩, rfl, rfl⟩

/-- The function `closeViewer` raises exactly when one of its two elements is missing. -/
theorem closeViewer_ok_iff (w : World) :
    (∃ w2, closeViewer w = .ok w2) ↔ w.page.viewerContent ≠ none ∧ w.page.viewer ≠ none := by
  unfold closeViewer
  cases hc : w.page.viewerContent with
  | none => simp
  | some c =>
    cases hv : w.page.viewer with
    | none => simp [hv]
    | some v => simp [hv]

/-! ## The percentage -/

/-- C6 fails on the code: on a page without resource items whose counter
`s-total` reads `0`, or nothing, `refresh` writes `NaN%` into `s-pct`. -/
theorem refresh_no_items :
    (refresh { freshWorld [] with
        page := { barePage with sDone := some "", sTotal := some "0", sPct := some "" } }).page.sPct
      = some "NaN%" ∧
    (refresh { freshWorld [] with
        page := { barePage with sDone := some "", sTotal := some "", sPct := some "" } }).page.sPct
      = some "NaN%" :=
  ⟨rfl, rfl⟩

/-- Whenever `refresh` finds no items and a total that is 0 or not a number, the
text it writes is `NaN%`. -/
theorem refresh_zero_total (w : World) (pct totalText : String)
    (hitems : w.page.items = []) (hpct : w.page.sPct = some pct)
    (htotal : w.page.sTotal = some totalText)
    (hzero : parseInt totalText = none ∨ parseInt totalText = some 0) :
    (refresh w).page.sPct = some "NaN%" := by
  unfold refresh
  simp only [hitems, hpct, htotal]
  rcases hzero with h | h <;> simp [h] <;> rfl

/-- The id list of `calculateTotalProgress` is fixed and not empty: the total
is 13 and the percentage is an integer between 0 and 100, never NaN. -/
theorem calculateTotalProgress_total (w : World) :
    (calculateTotalProgress w).total = 13 ∧
    ∃ i : Int, (calculateTotalProgress w).percentage = .int i ∧ 0 ≤ i ∧ i ≤ 100 := by
  refine ⟨rfl, ?_⟩
  have hlen : (allIds.filter (fun id => (getProp w.data id).truthy)).length ≤ 13 :=
    List.length_filter_le _ _
  show ∃ i : Int, roundPercent (allIds.filter (fun id => (getProp w.data id).truthy)).length
      (allIds.length : Int) = .int i ∧ 0 ≤ i ∧ i ≤ 100
  generalize (allIds.filter (fun id => (getProp w.data id).truthy)).length = d at hlen
  interval_cases d <;> exact ⟨_, rfl, by decide, by decide⟩

/-! ## Start-up -/

/-- C7 fails on the code: with a stored progress blob that is not valid JSON the
script stops with a SyntaxError while initialising `data`, before `videoMode`
is initialised, although a video mode is stored. -/
theorem loadScript_corrupt_blob :
    loadScript [(KEY, "\x7b"), (VIDEO_MODE_KEY, "drive")] = .error .syntaxError ∧
    initVideoMode [(KEY, "\x7b"), (VIDEO_MODE_KEY, "drive")] = "drive" :=
  ⟨rfl, rfl⟩

/-- A blob that does not parse stops start-up, whatever else is stored. -/
theorem loadScript_error (storage : List (String × String)) (blob : String) (e : JSError)
    (hblob : getItem storage KEY = some blob) (hparse : JSON.parse blob = .error e) :
    loadScript storage = .error e := by
  unfold loadScript initData
  rw [hblob]
  simp only [Option.getD_some]
  rw [hparse]

/-- With a blob that parses, or none, start-up yields the parsed value, or the
empty map when the value is falsy or nothing is stored, and the stored video
mode, `local` when none or an empty one is stored; neither depends on the
other entry. -/
theorem loadScript_ok (storage : List (String × String)) (v : JVal)
    (hparse : JSON.parse ((getItem storage KEY).getD "null") = .ok v) :
    loadScript storage =
      .ok (if truthy v then v else .obj [],
           match getItem storage VIDEO_MODE_KEY with
           | some s => if s = "" then "local" else s
           | none => "local") := by
  unfold loadScript initData
  rw [hparse]
  rfl

end MathHub
